import Mathlib

/-!
# Order statistics: `ordinal_statistics.h`

A shallow embedding of the selection routines of `src/ordinal_statistics.h` and the
properties proved about them.

Modelling conventions
* A `std::vector<T>` is a `List α`; an iterator into it is a position (`Nat`), a range
  `[first, last)` is a pair of positions into the buffer that holds it.
* `T` is a linearly ordered type (`operator<` is a strict total order).
* `std::size_t` and iterator differences are 64 bits wide, `int` is 32 bits wide in two's
  complement.  Positions, lengths and ranks are natural numbers (a vector has fewer than `2^63`
  elements, so no `std::size_t` computation of the source wraps); every conversion to `int` is
  explicit: `toInt` reduces an integer value modulo `2^32`, `toSizeT` converts an `int` back to
  `std::size_t` modulo `2^64`, and an `int` computation or a conversion from `double` whose
  result is outside the range of `int` is the failure `undefinedBehaviour`.
* The three `double` expressions of the source (`distance / 11.0 + 0.9`, `distance / 2.0 - 0.5`,
  `size / 2.0 - 0.5`) are followed by a truncating conversion; their operands are integers
  below `2^53` and halves or elevenths of them, and the truncated value is written as exact
  integer arithmetic.
* Every access through an iterator is checked: reading or writing outside the buffer is the
  failure `outOfRange`.  Loops and recursions whose length is not known in advance carry a step
  budget; exhausting it is the failure `fuelExhausted`.
* The elapsed time (second component of the returned pair) is not modelled.
-/

namespace OrdinalStatistics

variable {α : Type}

/-! ## Failures -/

/-- Ways in which a run can fail to produce a value. -/
inductive Failure where
  /-- the exception `std::invalid_argument` thrown by `CheckBoundaries`. -/
  | invalidRank
  /-- an access outside the container (`std::out_of_range` of `at`, or a wild dereference). -/
  | outOfRange
  /-- the step budget of a loop or of a recursion has run out. -/
  | fuelExhausted
  /-- an `int` computation that overflows, or a conversion from `double` to `int` of a value
  outside the range of `int`. -/
  | undefinedBehaviour
  deriving DecidableEq

/-! ## Machine integers -/

/-- Conversion to `int` of a non-negative value of a wider integer type (`static_cast<int>` of a
`std::size_t`, or the initialisation of an `int` from an iterator difference): the value is
reduced modulo `2^32` into the range `[-2^31, 2^31)`. -/
def toInt (n : Nat) : Int :=
  if n % 4294967296 < 2147483648 then ((n % 4294967296 : Nat) : Int)
  else ((n % 4294967296 : Nat) : Int) - 4294967296

/-- Conversion of an `int` to `std::size_t`, as done by the usual arithmetic conversions and for
the argument of `at`: the value modulo `2^64`. -/
def toSizeT (z : Int) : Nat :=
  (z % 18446744073709551616).toNat

/-! ## Checked buffer access -/

/-- Checked read `*it` of the position `i` of the buffer `a`. -/
def readAt (a : List α) (i : Nat) : Except Failure α :=
  match a[i]? with
  | some x => .ok x
  | none => .error .outOfRange

/-- Checked write `*it = x` at the position `i` of the buffer `a`. -/
def writeAt (a : List α) (i : Nat) (x : α) : Except Failure (List α) :=
  if i < a.length then .ok (a.set i x) else .error .outOfRange

/-- Exchange `std::swap(*i, *j)` of two positions of one buffer. -/
def swapAt (a : List α) (i j : Nat) : Except Failure (List α) := do
  let x ← readAt a i
  let y ← readAt a j
  let a ← writeAt a i y
  writeAt a j x

/-- The contents of the range `[first, last)` of the buffer `a`. -/
def segment (a : List α) (first last : Nat) : List α :=
  (a.drop first).take (last - first)

/-- Two containers live during a call of `ModifiedPartition`: `main` holds the range that is
partitioned, `aux` is the other container an iterator argument may point into (the `medians`
vector of `Select`). -/
structure Memory (α : Type) where
  main : List α
  aux : List α

/-- An iterator: a position in one of the two containers of a `Memory`. -/
inductive Iter where
  | main (pos : Nat)
  | aux (pos : Nat)
  deriving DecidableEq

/-- Dereference `*it`. -/
def Memory.read (m : Memory α) : Iter → Except Failure α
  | .main p => readAt m.main p
  | .aux p => readAt m.aux p

/-- Assignment `*it = x`. -/
def Memory.write (m : Memory α) (it : Iter) (x : α) : Except Failure (Memory α) :=
  match it with
  | .main p => do
      let l ← writeAt m.main p x
      pure { m with main := l }
  | .aux p => do
      let l ← writeAt m.aux p x
      pure { m with aux := l }

/-- Exchange `std::swap(*a, *b)` of the values two iterators point to. -/
def Memory.swap (m : Memory α) (a b : Iter) : Except Failure (Memory α) := do
  let x ← m.read a
  let y ← m.read b
  let m ← m.write a y
  m.write b x

/-! ## Standard library algorithms -/

/-- Scan from the right end for the last element that satisfies `p`: the list is returned as
`(ys, y, zs)` with `ys ++ y :: zs` the list, `p y`, and no element of `zs` satisfying `p`. -/
def splitAtLastSat (p : α → Bool) : List α → Option (List α × α × List α)
  | [] => none
  | x :: xs =>
    match splitAtLastSat p xs with
    | some (ys, y, zs) => some (x :: ys, y, zs)
    | none => if p x then some ([], x, xs) else none

/-- The two-ended exchange loop of `std::partition` for bidirectional iterators (the algorithm of
libstdc++, libc++ and the MSVC library), on the contents of the range: `first` moves right over
elements satisfying `p`, `last` moves left over elements failing it, the two elements they stop
at are exchanged, and the loop goes on strictly inside.  Returns the rearranged contents and the
distance of the returned iterator from `first`. -/
def hoarePartition (p : α → Bool) : Nat → List α → List α × Nat
  | 0, l => (l, 0)
  | _ + 1, [] => ([], 0)
  | fuel + 1, x :: xs =>
    if p x then
      let r := hoarePartition p fuel xs
      (x :: r.1, r.2 + 1)
    else
      match splitAtLastSat p xs with
      | none => (x :: xs, 0)
      | some (ys, y, zs) =>
        let r := hoarePartition p fuel ys
        (y :: r.1 ++ x :: zs, r.2 + 1)

/-- The call `std::partition(first, last, p)` on the range `[first, last)` of the buffer `a`:
the new buffer and the returned position. -/
def stdPartition (p : α → Bool) (a : List α) (first last : Nat) : Except Failure (List α × Nat) :=
  if first ≤ last ∧ last ≤ a.length then
    let seg := segment a first last
    let r := hoarePartition p seg.length seg
    .ok (a.take first ++ r.1 ++ a.drop last, first + r.2)
  else .error .outOfRange

/-- The call `std::sort(begin, end)` on a whole vector: the non-descending arrangement of its
elements. -/
def stdSort [LinearOrder α] (a : List α) : List α :=
  a.insertionSort (· ≤ ·)

/-! ## Helpers -/

/-- The check `CheckBoundaries(array, i)`: it throws when the collection is empty or the rank is
outside `1..size`. -/
def CheckBoundaries (array : List α) (i : Nat) : Except Failure Unit :=
  if array.isEmpty || decide (i > array.length) || decide (i < 1) then
    .error .invalidRank
  else
    .ok ()

/-- The function `ModifiedPartition(first, last, pivot)`: the range is `[first, last)` of
`m.main`, the iterator `pivot` may point into either container.  Returns the memory afterwards
and the returned position. -/
def ModifiedPartition [LinearOrder α] (m : Memory α) (first last : Nat) (pivot : Iter) :
    Except Failure (Memory α × Nat) := do
  let pivot_element ← m.read pivot
  let (main, right_first) ←
    stdPartition (fun element => decide (element < pivot_element)) m.main first last
  let m : Memory α := { m with main := main }
  if right_first - first = 0 then
    let m ← m.swap pivot (.main right_first)
    pure (m, right_first + 1)
  else
    pure (m, right_first)

/-- Inner loop of `InsertionSort`:
`for (j = i; j > first && *prev(j) > *j; j--) swap(*prev(j), *j)`. -/
def InsertionSort.inner [LinearOrder α] (first : Nat) : Nat → List α → Except Failure (List α)
  | 0, a => pure a
  | j + 1, a =>
    if j + 1 > first then do
      let x ← readAt a j
      let y ← readAt a (j + 1)
      if x > y then do
        let a ← swapAt a j (j + 1)
        InsertionSort.inner first j a
      else
        pure a
    else
      pure a

/-- Outer loop of `InsertionSort`, `steps` iterations starting at position `i`. -/
def InsertionSort.outer [LinearOrder α] (first : Nat) :
    (steps : Nat) → (i : Nat) → List α → Except Failure (List α)
  | 0, _, a => pure a
  | steps + 1, i, a => do
    let a ← InsertionSort.inner first i a
    InsertionSort.outer first steps (i + 1) a

/-- The function `InsertionSort(first, last)`: the loop `for (i = next(first); i < last; i++)` runs
`last - (first + 1)` times. -/
def InsertionSort [LinearOrder α] (a : List α) (first last : Nat) : Except Failure (List α) :=
  InsertionSort.outer first (last - (first + 1)) (first + 1) a

/-! ## Naive select -/

/-- The strategy `NaiveSelect(array, i)`.  In `array.at(static_cast<int>(i) - 1)` the rank is
converted to `int`, the subtraction is done in `int` (it overflows when the converted rank is
the least `int`), and the result is converted to `std::size_t` for the checked access `at`. -/
def NaiveSelect [LinearOrder α] (array : List α) (i : Nat) : Except Failure α := do
  CheckBoundaries array i
  let array := stdSort array
  let idx : Int := toInt i - 1
  if idx < -2147483648 then .error .undefinedBehaviour else readAt array (toSizeT idx)

/-! ## Randomized select -/

/-- Modelled from the spec: the uniform random integer source `Random(low, high)` declared in
`utils.h`, which is not part of the sources.  `next k low high` is the integer returned by the
`k`-th call, made with the arguments `low` and `high`. -/
structure RandomSource where
  next : Nat → Nat → Nat → Nat

/-- The contract of the random source: every call returns an integer in `[low, high]`. -/
def RandomSource.InRange (rnd : RandomSource) : Prop :=
  ∀ k low high, low ≤ high → low ≤ rnd.next k low high ∧ rnd.next k low high ≤ high

/-- The function `RandomizedPartition(first, last)`, making the `k`-th call of the random source:
`Random(0, distance(first, last) - 1)`. -/
def RandomizedPartition [LinearOrder α] (rnd : RandomSource) (k : Nat) (a : List α)
    (first last : Nat) : Except Failure (List α × Nat) := do
  let pivot_it := first + rnd.next k 0 (last - first - 1)
  let (m, right_first) ← ModifiedPartition ⟨a, []⟩ first last (.main pivot_it)
  pure (m.main, right_first)

/-- The function `NonRecursiveRandomizedSelect(first, last, i)`: the `while` loop, with a step
budget; `k` counts the calls of the random source made so far.  The distance
`std::distance(first, right_first_it)` is stored in the `int size_left_part`; in the test
`i < size_left_part` and in `i -= size_left_part` that `int` is converted to `std::size_t` (in
the `else` branch the converted value is at most `i`, so the subtraction does not wrap). -/
def NonRecursiveRandomizedSelect [LinearOrder α] (rnd : RandomSource) :
    (fuel : Nat) → (k : Nat) → List α → (first last i : Nat) → Except Failure (List α × Nat)
  | 0, _, _, _, _, _ => .error .fuelExhausted
  | fuel + 1, k, a, first, last, i =>
    if first + 1 ≠ last then do
      let (a, right_first_it) ← RandomizedPartition rnd k a first last
      let size_left_part : Int := toInt (right_first_it - first)
      if i < toSizeT size_left_part then
        NonRecursiveRandomizedSelect rnd fuel (k + 1) a first right_first_it i
      else
        NonRecursiveRandomizedSelect rnd fuel (k + 1) a right_first_it last
          (i - toSizeT size_left_part)
    else
      pure (a, first)

/-- The strategy `RandomizedSelect(array, i)`. -/
def RandomizedSelect [LinearOrder α] (rnd : RandomSource) (array : List α) (i : Nat) :
    Except Failure α := do
  CheckBoundaries array i
  let (a, it) ← NonRecursiveRandomizedSelect rnd array.length 0 array 0 array.length (i - 1)
  readAt a it

/-! ## Determined select -/

/-- The function `SplitArray(first, last)`: the groups as pairs of positions.  The number of groups
`static_cast<size_t>(distance / 11.0 + 0.9)` is the integer part of `distance / 11 + 9 / 10`,
that is `(10 * distance + 99) / 110`. -/
def SplitArray (first last : Nat) : List (Nat × Nat) :=
  let split_size := 11
  let num_groups := (10 * (last - first) + 99) / 110
  (List.range num_groups).map fun i =>
    (first + i * split_size, first + min ((i + 1) * split_size) (last - first))

/-- The function `Median(first, last)`: the buffer after the in-place sort of the range and the
returned value.  The `double` value `distance / 2.0 - 0.5` rounded toward zero is
`(distance - 1) / 2`; its conversion `static_cast<int>` is undefined when that exceeds the
greatest `int`. -/
def Median [LinearOrder α] (a : List α) (first last : Nat) : Except Failure (List α × α) := do
  let a ← InsertionSort a first last
  let idx := (last - first - 1) / 2
  if idx > 2147483647 then
    .error .undefinedBehaviour
  else do
    let v ← readAt a (first + idx)
    pure (a, v)

/-- The loop `for (group : groups) medians.push_back(Median(group.first, group.second))` of
`Select`: the buffer after all the in-place sorts and the vector `medians`. -/
def collectMedians [LinearOrder α] :
    List α → List (Nat × Nat) → List α → Except Failure (List α × List α)
  | a, [], medians => pure (a, medians)
  | a, group :: groups, medians => do
    let (a, v) ← Median a group.1 group.2
    collectMedians a groups (medians ++ [v])

/-- The function `Select(first, last, i)` on the range `[first, last)` of the buffer `a`, with a budget on the
recursion depth: the buffer afterwards and the returned position. -/
def Select [LinearOrder α] :
    (fuel : Nat) → List α → (first last i : Nat) → Except Failure (List α × Nat)
  | 0, _, _, _, _ => .error .fuelExhausted
  | fuel + 1, a, first, last, i =>
    if first + 1 = last then
      pure (a, first)
    else do
      let (a, medians) ← collectMedians a (SplitArray first last) []
      let (medians, total_median_it) ←
        Select fuel medians 0 medians.length ((medians.length - 1) / 2)
      let (m, right_first) ← ModifiedPartition ⟨a, medians⟩ first last (.aux total_median_it)
      let size_left_part := right_first - first
      if i < size_left_part then
        Select fuel m.main first right_first i
      else
        Select fuel m.main right_first last (i - size_left_part)

/-- The strategy `DeterminedSelect(array, i)`. -/
def DeterminedSelect [LinearOrder α] (array : List α) (i : Nat) : Except Failure α := do
  CheckBoundaries array i
  let (a, it) ← Select array.length array 0 array.length (i - 1)
  readAt a it

/-! ## Frames and sample random sources -/

/-- The buffer `b` agrees with the buffer `a` outside the range `[first, last)` and has the same
length: only positions of the range may have been written. -/
def SameOutside (a b : List α) (first last : Nat) : Prop :=
  b.length = a.length ∧ ∀ j, (j < first ∨ last ≤ j) → b[j]? = a[j]?

/-- A random source that always answers `low`: the pivot is the first position of the range. -/
def lowestSource : RandomSource := ⟨fun _ low _ => low⟩

/-- A random source that always answers `high`: the pivot is the last position of the range. -/
def highestSource : RandomSource := ⟨fun _ _ high => high⟩

/-- The range `[first, last)` of the buffer `a` is in non-descending order: an earlier position
of the range never holds a larger element than a later one. -/
def RangeSorted [LinearOrder α] (a : List α) (first last : Nat) : Prop :=
  ∀ p q x y, first ≤ p → p < q → q < last → a[p]? = some x → a[q]? = some y → x ≤ y

/-! # Properties -/

theorem splitAtLastSat_none {p : α → Bool} :
    ∀ {l : List α}, splitAtLastSat p l = none → ∀ x ∈ l, p x = false := by
  intro l
  induction l with
  | nil => intro _ x hx; cases hx
  | cons a l ih =>
    intro h x hx
    unfold splitAtLastSat at h
    cases hs : splitAtLastSat p l with
    | some t => rw [hs] at h; cases h
    | none =>
      rw [hs] at h
      by_cases hp : p a = true
      · simp [hp] at h
      · rcases List.mem_cons.1 hx with rfl | hx
        · simpa using hp
        · exact ih hs x hx

theorem splitAtLastSat_eq_none {p : α → Bool} :
    ∀ {l : List α}, (∀ x ∈ l, p x = false) → splitAtLastSat p l = none := by
  intro l
  induction l with
  | nil => intro _; rfl
  | cons a l ih =>
    intro h
    have h1 : splitAtLastSat p l = none := ih (fun x hx => h x (List.mem_cons_of_mem _ hx))
    have h2 : p a = false := h a (List.mem_cons_self _ _)
    simp [splitAtLastSat, h1, h2]

theorem splitAtLastSat_some {p : α → Bool} :
    ∀ {l ys : List α} {y : α} {zs : List α}, splitAtLastSat p l = some (ys, y, zs) →
      l = ys ++ y :: zs ∧ p y = true ∧ ∀ z ∈ zs, p z = false := by
  intro l
  induction l with
  | nil => intro ys y zs h; cases h
  | cons a l ih =>
    intro ys y zs h
    unfold splitAtLastSat at h
    cases hs : splitAtLastSat p l with
    | some t =>
      obtain ⟨ys1, y1, zs1⟩ := t
      rw [hs] at h
      simp only [Option.some.injEq, Prod.mk.injEq] at h
      obtain ⟨rfl, rfl, rfl⟩ := h
      obtain ⟨h1, h2, h3⟩ := ih hs
      exact ⟨by rw [h1]; rfl, h2, h3⟩
    | none =>
      rw [hs] at h
      by_cases hp : p a = true
      · simp only [hp, if_true, Option.some.injEq, Prod.mk.injEq] at h
        obtain ⟨rfl, rfl, rfl⟩ := h
        exact ⟨rfl, hp, splitAtLastSat_none hs⟩
      · simp [hp] at h

theorem hoarePartition_spec (p : α → Bool) :
    ∀ (fuel : Nat) (l : List α), l.length ≤ fuel →
      ∃ L R, (hoarePartition p fuel l).1 = L ++ R ∧ (hoarePartition p fuel l).2 = L.length ∧
        (∀ x ∈ L, p x = true) ∧ (∀ x ∈ R, p x = false) ∧ (L ++ R).Perm l := by
  intro fuel
  induction fuel with
  | zero =>
    intro l hl
    have : l = [] := List.length_eq_zero.1 (Nat.le_zero.1 hl)
    subst this
    exact ⟨[], [], rfl, rfl, by simp, by simp, List.Perm.refl _⟩
  | succ fuel ih =>
    intro l hl
    cases l with
    | nil => exact ⟨[], [], rfl, rfl, by simp, by simp, List.Perm.refl _⟩
    | cons x xs =>
      have hxs : xs.length ≤ fuel := by simpa using hl
      by_cases hp : p x = true
      · obtain ⟨L, R, h1, h2, h3, h4, h5⟩ := ih xs hxs
        refine ⟨x :: L, R, ?_, ?_, ?_, h4, ?_⟩
        · simp [hoarePartition, hp, h1]
        · simp [hoarePartition, hp, h2]
        · intro z hz
          rcases List.mem_cons.1 hz with rfl | hz
          · exact hp
          · exact h3 z hz
        · simpa using h5
      · have hpf : p x = false := by simpa using hp
        cases hs : splitAtLastSat p xs with
        | none =>
          refine ⟨[], x :: xs, ?_, ?_, by simp, ?_, List.Perm.refl _⟩
          · simp [hoarePartition, hpf, hs]
          · simp [hoarePartition, hpf, hs]
          · intro z hz
            rcases List.mem_cons.1 hz with rfl | hz
            · exact hpf
            · exact splitAtLastSat_none hs z hz
        | some t =>
          obtain ⟨ys, y, zs⟩ := t
          obtain ⟨e, hy, hzs⟩ := splitAtLastSat_some hs
          have hys : ys.length ≤ fuel := by
            have : xs.length = ys.length + (zs.length + 1) := by rw [e]; simp
            omega
          obtain ⟨L, R, h1, h2, h3, h4, h5⟩ := ih ys hys
          refine ⟨y :: L, R ++ x :: zs, ?_, ?_, ?_, ?_, ?_⟩
          · simp [hoarePartition, hpf, hs, h1]
          · simp [hoarePartition, hpf, hs, h2]
          · intro z hz
            rcases List.mem_cons.1 hz with rfl | hz
            · exact hy
            · exact h3 z hz
          · intro z hz
            rcases List.mem_append.1 hz with hz | hz
            · exact h4 z hz
            · rcases List.mem_cons.1 hz with rfl | hz
              · exact hpf
              · exact hzs z hz
          · subst e
            have h6 : (y :: L ++ (R ++ x :: zs)).Perm (y :: (ys ++ x :: zs)) := by
              have : (L ++ R ++ x :: zs).Perm (ys ++ x :: zs) := h5.append_right _
              simpa using this
            refine h6.trans ?_
            have h7 : (y :: (ys ++ x :: zs)).Perm (x :: (ys ++ y :: zs)) := by
              have a1 : (ys ++ x :: zs).Perm (x :: (ys ++ zs)) := List.perm_middle
              have a2 : (ys ++ y :: zs).Perm (y :: (ys ++ zs)) := List.perm_middle
              exact ((a1.cons y).trans (List.Perm.swap x y _)).trans (a2.symm.cons x)
            exact h7

theorem hoarePartition_of_all_false (p : α → Bool) (fuel : Nat) (l : List α)
    (h : ∀ x ∈ l, p x = false) : hoarePartition p fuel l = (l, 0) := by
  cases fuel with
  | zero => rfl
  | succ fuel =>
    cases l with
    | nil => rfl
    | cons x xs =>
      have h1 : p x = false := h x (List.mem_cons_self _ _)
      have h2 : splitAtLastSat p xs = none :=
        splitAtLastSat_eq_none (fun z hz => h z (List.mem_cons_of_mem _ hz))
      simp [hoarePartition, h1, h2]

/-! ## Ranges of a buffer -/

theorem segment_length {a : List α} {f l : Nat} (h : l ≤ a.length) :
    (segment a f l).length = l - f := by
  simp only [segment, List.length_take, List.length_drop]
  omega

theorem getElem?_segment (a : List α) (f l j : Nat) :
    (segment a f l)[j]? = if j < l - f then a[f + j]? else none := by
  simp only [segment, List.getElem?_take, List.getElem?_drop]

theorem mem_segment {a : List α} {f l : Nat} {x : α} :
    x ∈ segment a f l ↔ ∃ j, f ≤ j ∧ j < l ∧ a[j]? = some x := by
  rw [List.mem_iff_getElem?]
  constructor
  · rintro ⟨n, hn⟩
    rw [getElem?_segment] at hn
    by_cases h : n < l - f
    · rw [if_pos h] at hn
      exact ⟨f + n, by omega, by omega, hn⟩
    · rw [if_neg h] at hn; cases hn
  · rintro ⟨j, h1, h2, h3⟩
    refine ⟨j - f, ?_⟩
    rw [getElem?_segment, if_pos (by omega)]
    have : f + (j - f) = j := by omega
    rw [this]; exact h3

theorem segment_congr {a b : List α} {f l : Nat}
    (h : ∀ j, f ≤ j → j < l → b[j]? = a[j]?) : segment b f l = segment a f l := by
  apply List.ext_getElem?
  intro n
  rw [getElem?_segment, getElem?_segment]
  by_cases hn : n < l - f
  · rw [if_pos hn, if_pos hn]; exact h _ (by omega) (by omega)
  · rw [if_neg hn, if_neg hn]

theorem segment_split (a : List α) {f b l : Nat} (hfb : f ≤ b) (hbl : b ≤ l) :
    segment a f l = segment a f b ++ segment a b l := by
  apply List.ext_getElem?
  intro n
  rw [List.getElem?_append, getElem?_segment, getElem?_segment, getElem?_segment]
  by_cases hlen : b ≤ a.length
  · rw [segment_length hlen]
    by_cases h1 : n < b - f
    · rw [if_pos h1, if_pos h1, if_pos (by omega)]
    · rw [if_neg h1]
      by_cases h2 : n < l - f
      · rw [if_pos h2, if_pos (by omega)]
        congr 1; omega
      · rw [if_neg h2, if_neg (by omega)]
  · have hlen2 : (segment a f b).length = a.length - f := by
      simp only [segment, List.length_take, List.length_drop]; omega
    rw [hlen2]
    by_cases h1 : n < a.length - f
    · rw [if_pos h1, if_pos (by omega), if_pos (by omega)]
    · rw [if_neg h1]
      have e1 : a[f + n]? = none := List.getElem?_eq_none (by omega)
      have e2 : a[b + (n - (a.length - f))]? = none := List.getElem?_eq_none (by omega)
      rw [e1, e2]; simp

theorem segment_whole (a : List α) : segment a 0 a.length = a := by
  simp [segment]

theorem buffer_eq (a : List α) {f l : Nat} (h : f ≤ l) :
    a = a.take f ++ segment a f l ++ a.drop l := by
  apply List.ext_getElem?
  intro n
  rw [List.append_assoc, List.getElem?_append, List.getElem?_append, List.getElem?_take,
    getElem?_segment, List.getElem?_drop]
  simp only [List.length_take, segment, List.length_drop]
  by_cases hn : n < a.length
  · by_cases h1 : n < f
    · rw [if_pos (by omega), if_pos h1]
    · rw [if_neg (by omega)]
      by_cases h2 : n < l
      · rw [if_pos (by omega), if_pos (by omega)]; congr 1; omega
      · rw [if_neg (by omega)]; congr 1; omega
  · have e : a[n]? = none := List.getElem?_eq_none (by omega)
    rw [e]
    by_cases h1 : n < min f a.length
    · omega
    · rw [if_neg h1]
      by_cases h2 : n - min f a.length < min (l - f) (a.length - f)
      · omega
      · rw [if_neg h2]
        symm; apply List.getElem?_eq_none; omega

theorem segment_of_append (A S B : List α) :
    segment (A ++ S ++ B) A.length (A.length + S.length) = S := by
  simp [segment]

/-! ## Frames -/

theorem SameOutside.refl (a : List α) (f l : Nat) : SameOutside a a f l :=
  ⟨rfl, fun _ _ => rfl⟩

theorem SameOutside.trans {a b c : List α} {f l : Nat} (h1 : SameOutside a b f l)
    (h2 : SameOutside b c f l) : SameOutside a c f l :=
  ⟨h2.1.trans h1.1, fun j hj => (h2.2 j hj).trans (h1.2 j hj)⟩

theorem SameOutside.mono {a b : List α} {f l f1 l1 : Nat} (h : SameOutside a b f l)
    (hf : f1 ≤ f) (hl : l ≤ l1) : SameOutside a b f1 l1 :=
  ⟨h.1, fun j hj => h.2 j (by omega)⟩

theorem SameOutside.segment_right {a b : List α} {f l : Nat} (h : SameOutside a b f l)
    {f1 l1 : Nat} (hf : l ≤ f1) : segment b f1 l1 = segment a f1 l1 :=
  segment_congr (fun j h1 _ => h.2 j (by omega))

theorem SameOutside.segment_left {a b : List α} {f l : Nat} (h : SameOutside a b f l)
    {f1 l1 : Nat} (hl : l1 ≤ f) : segment b f1 l1 = segment a f1 l1 :=
  segment_congr (fun j _ h2 => h.2 j (by omega))

theorem SameOutside.take_eq {a b : List α} {f l : Nat} (h : SameOutside a b f l) :
    b.take f = a.take f := by
  apply List.ext_getElem?
  intro n
  rw [List.getElem?_take, List.getElem?_take]
  by_cases hn : n < f
  · rw [if_pos hn, if_pos hn]; exact h.2 n (Or.inl hn)
  · rw [if_neg hn, if_neg hn]

theorem SameOutside.drop_eq {a b : List α} {f l : Nat} (h : SameOutside a b f l) :
    b.drop l = a.drop l := by
  apply List.ext_getElem?
  intro n
  rw [List.getElem?_drop, List.getElem?_drop]
  exact h.2 _ (Or.inr (by omega))

theorem SameOutside.segment_perm {a b : List α} {f l : Nat} (h : SameOutside a b f l)
    (hfl : f ≤ l) (hp : b.Perm a) : (segment b f l).Perm (segment a f l) := by
  have ea := buffer_eq a hfl
  have eb := buffer_eq b hfl
  rw [h.take_eq, h.drop_eq] at eb
  rw [ea] at hp
  rw [eb] at hp
  have h1 := (List.perm_append_right_iff _).1 hp
  exact (List.perm_append_left_iff _).1 h1

theorem SameOutside.of_segment_perm {a b : List α} {f l : Nat} (h : SameOutside a b f l)
    (hfl : f ≤ l) (hp : (segment b f l).Perm (segment a f l)) : b.Perm a := by
  have ea := buffer_eq a hfl
  have eb := buffer_eq b hfl
  rw [h.take_eq, h.drop_eq] at eb
  rw [ea, eb]
  exact ((List.perm_append_left_iff _).2 hp).append_right _

/-! ## Checked accesses -/

theorem readAt_of_getElem? {a : List α} {i : Nat} {x : α} (h : a[i]? = some x) :
    readAt a i = .ok x := by
  simp [readAt, h]

theorem readAt_eq_ok_iff {a : List α} {i : Nat} {x : α} :
    readAt a i = .ok x ↔ a[i]? = some x := by
  unfold readAt
  cases h : a[i]? with
  | none => simp
  | some y => simp

theorem exists_getElem?_of_lt {a : List α} {i : Nat} (h : i < a.length) :
    ∃ x, a[i]? = some x :=
  ⟨a[i], List.getElem?_eq_getElem h⟩

theorem lt_length_of_getElem? {a : List α} {i : Nat} {x : α} (h : a[i]? = some x) :
    i < a.length := by
  obtain ⟨h1, _⟩ := List.getElem?_eq_some_iff.1 h
  exact h1

theorem writeAt_ok {a : List α} {i : Nat} (x : α) (h : i < a.length) :
    writeAt a i x = .ok (a.set i x) := by
  simp [writeAt, h]

theorem swapAt_ok {a : List α} {i j : Nat} {x y : α} (hx : a[i]? = some x)
    (hy : a[j]? = some y) : swapAt a i j = .ok ((a.set i y).set j x) := by
  have hi := lt_length_of_getElem? hx
  have hj := lt_length_of_getElem? hy
  simp only [swapAt, readAt_of_getElem? hx, readAt_of_getElem? hy, writeAt_ok y hi, bind,
    Except.bind]
  rw [writeAt_ok x (by simpa using hj)]

theorem set_append_perm {x v : α} :
    ∀ {a : List α} {i : Nat}, a[i]? = some x → (a.set i v ++ [x]).Perm (a ++ [v]) := by
  intro a
  induction a with
  | nil => intro i h; simp at h
  | cons b t ih =>
    intro i h
    cases i with
    | zero =>
      simp only [List.getElem?_cons_zero, Option.some.injEq] at h
      subst h
      simp only [List.set_cons_zero, List.cons_append]
      have h1 : (t ++ [b]).Perm (b :: t) := List.perm_append_singleton b t
      have h2 : (t ++ [v]).Perm (v :: t) := List.perm_append_singleton v t
      exact ((h1.cons v).trans (List.Perm.swap b v t)).trans (h2.symm.cons b)
    | succ i =>
      simp only [List.getElem?_cons_succ] at h
      simp only [List.set_cons_succ, List.cons_append]
      exact (ih h).cons b

theorem set_set_perm_of_getElem? {a : List α} {i j : Nat} {x y : α} (hx : a[i]? = some x)
    (hy : a[j]? = some y) : ((a.set i y).set j x).Perm a := by
  by_cases hij : i = j
  · subst hij
    have : x = y := by rw [hx] at hy; exact Option.some.inj hy
    subst this
    have e : a.set i x = a := by
      apply List.ext_getElem?
      intro n
      rw [List.getElem?_set]
      by_cases hn : i = n
      · subst hn; rw [if_pos rfl, if_pos (lt_length_of_getElem? hx), hx]
      · rw [if_neg hn]
    rw [e, e]
  · have h1 : (a.set i y ++ [x]).Perm (a ++ [y]) := set_append_perm hx
    have hy1 : (a.set i y)[j]? = some y := by
      rw [List.getElem?_set, if_neg hij]; exact hy
    have h2 : ((a.set i y).set j x ++ [y]).Perm (a.set i y ++ [x]) := set_append_perm hy1
    exact (List.perm_append_right_iff _).1 (h2.trans h1)

theorem getElem?_set_set {a : List α} {i j : Nat} {x y : α} (hi : i < a.length)
    (hj : j < a.length) (k : Nat) :
    ((a.set i y).set j x)[k]? = if j = k then some x else if i = k then some y else a[k]? := by
  rw [List.getElem?_set, List.getElem?_set]
  simp only [List.length_set, hi, hj, if_true]

theorem sameOutside_set_set {a : List α} {i j f l : Nat} {x y : α} (hi : i < a.length)
    (hj : j < a.length) (hfi : f ≤ i) (hil : i < l) (hfj : f ≤ j) (hjl : j < l) :
    SameOutside a ((a.set i y).set j x) f l := by
  refine ⟨by simp, fun k hk => ?_⟩
  rw [getElem?_set_set hi hj, if_neg (by omega), if_neg (by omega)]

/-! ## `std::partition` -/

theorem stdPartition_ok (p : α → Bool) (a : List α) {f l : Nat} (hfl : f ≤ l)
    (hl : l ≤ a.length) :
    ∃ b L R, stdPartition p a f l = .ok (b, f + L.length) ∧ segment b f l = L ++ R ∧
      (∀ x ∈ L, p x = true) ∧ (∀ x ∈ R, p x = false) ∧ b.Perm a ∧ SameOutside a b f l := by
  obtain ⟨L, R, h1, h2, h3, h4, h5⟩ :=
    hoarePartition_spec p (segment a f l).length (segment a f l) (Nat.le_refl _)
  have hlen : (L ++ R).length = l - f := by rw [h5.length_eq, segment_length hl]
  have htake : (a.take f).length = f := by simp; omega
  refine ⟨a.take f ++ (L ++ R) ++ a.drop l, L, R, ?_, ?_, h3, h4, ?_, ?_, ?_⟩
  · simp only [stdPartition, hfl, hl, and_self, if_true, h1, h2]
  · have := segment_of_append (a.take f) (L ++ R) (a.drop l)
    rw [htake, hlen] at this
    have e : f + (l - f) = l := by omega
    rw [e] at this
    exact this
  · have ea := buffer_eq a hfl
    have : (a.take f ++ (L ++ R) ++ a.drop l).Perm (a.take f ++ segment a f l ++ a.drop l) :=
      ((List.perm_append_left_iff _).2 h5).append_right _
    rw [← ea] at this
    exact this
  · simp only [List.length_append, List.length_take, List.length_drop] at hlen ⊢
    omega
  · intro j hj
    rw [List.append_assoc, List.getElem?_append, htake]
    rcases hj with hj | hj
    · rw [if_pos hj, List.getElem?_take, if_pos hj]
    · rw [if_neg (by omega), List.getElem?_append, hlen, if_neg (by omega), List.getElem?_drop]
      congr 1; omega

theorem stdPartition_of_all_false (p : α → Bool) (a : List α) {f l : Nat} (hfl : f ≤ l)
    (hl : l ≤ a.length) (h : ∀ x ∈ segment a f l, p x = false) :
    stdPartition p a f l = .ok (a, f) := by
  have e := hoarePartition_of_all_false p (segment a f l).length (segment a f l) h
  simp only [stdPartition, hfl, hl, and_self, if_true, e]
  rw [← buffer_eq a hfl]
  rfl

theorem segment_parts {b : List α} {f l : Nat} {L R : List α} (hl : l ≤ b.length)
    (hfl : f ≤ l) (h : segment b f l = L ++ R) :
    f + L.length ≤ l ∧ segment b f (f + L.length) = L ∧ segment b (f + L.length) l = R := by
  have hlen : (L ++ R).length = l - f := by rw [← h, segment_length hl]
  simp only [List.length_append] at hlen
  have hb : f + L.length ≤ l := by omega
  have hs := segment_split b (Nat.le_add_right f L.length) hb
  rw [h] at hs
  have hl1 : (segment b f (f + L.length)).length = L.length := by
    rw [segment_length (by omega)]; omega
  obtain ⟨e1, e2⟩ := List.append_inj hs hl1.symm
  exact ⟨hb, e1.symm, e2.symm⟩

/-! ## `ModifiedPartition` with the pivot inside the range -/

theorem Memory.swap_main_ok {a aux : List α} {i j : Nat} {x y : α} (hx : a[i]? = some x)
    (hy : a[j]? = some y) :
    (Memory.mk a aux).swap (.main i) (.main j) = .ok ⟨(a.set i y).set j x, aux⟩ := by
  have hi := lt_length_of_getElem? hx
  have hj := lt_length_of_getElem? hy
  simp only [Memory.swap, Memory.read, Memory.write, readAt_of_getElem? hx,
    readAt_of_getElem? hy, writeAt_ok y hi, bind, Except.bind, pure, Except.pure]
  rw [writeAt_ok x (by simpa using hj)]

theorem ModifiedPartition_main [LinearOrder α] (a aux : List α) {f l pv : Nat} {pe : α}
    (hfl : f < l) (hl : l ≤ a.length) (hpv : f ≤ pv) (hpvl : pv < l)
    (hpe : a[pv]? = some pe) :
    ∃ b r, ModifiedPartition ⟨a, aux⟩ f l (.main pv) = .ok (⟨b, aux⟩, r) ∧ b.Perm a ∧
      SameOutside a b f l ∧ f < r ∧ r ≤ l ∧ (f + 1 < l → r < l) ∧
      (∀ x ∈ segment b r l, pe ≤ x) ∧
      (((∃ x ∈ segment a f l, x < pe) ∧ ∀ x ∈ segment b f r, x < pe) ∨
        ((∀ x ∈ segment a f l, pe ≤ x) ∧ r = f + 1 ∧ b[f]? = some pe)) := by
  have hpmem : pe ∈ segment a f l := mem_segment.2 ⟨pv, hpv, hpvl, hpe⟩
  by_cases hex : ∃ x ∈ segment a f l, x < pe
  · obtain ⟨b, L, R, h1, h2, h3, h4, h5, h6⟩ :=
      stdPartition_ok (fun element => decide (element < pe)) a (Nat.le_of_lt hfl) hl
    have hlb : l ≤ b.length := by rw [h6.1]; exact hl
    obtain ⟨hb, e1, e2⟩ := segment_parts hlb (Nat.le_of_lt hfl) h2
    have hsp := h6.segment_perm (Nat.le_of_lt hfl) h5
    rw [h2] at hsp
    have hL : 0 < L.length := by
      obtain ⟨x, hx, hxp⟩ := hex
      have : x ∈ L ++ R := hsp.symm.subset hx
      rcases List.mem_append.1 this with h | h
      · exact List.length_pos_of_mem h
      · have := h4 x h
        simp [hxp] at this
    have hR : 0 < R.length := by
      have : pe ∈ L ++ R := hsp.symm.subset hpmem
      rcases List.mem_append.1 this with h | h
      · have := h3 pe h
        simp at this
      · exact List.length_pos_of_mem h
    have hlen : (L ++ R).length = l - f := by rw [← h2, segment_length hlb]
    simp only [List.length_append] at hlen
    refine ⟨b, f + L.length, ?_, h5, h6, by omega, hb, fun _ => by omega, ?_, Or.inl ⟨hex, ?_⟩⟩
    · simp only [ModifiedPartition, Memory.read, readAt_of_getElem? hpe, bind, Except.bind, h1]
      rw [if_neg (by omega)]
      rfl
    · intro x hx
      rw [e2] at hx
      have := h4 x hx
      simpa using this
    · intro x hx
      rw [e1] at hx
      have := h3 x hx
      simpa using this
  · have hall : ∀ x ∈ segment a f l, pe ≤ x := by
      intro x hx
      by_contra hc
      exact hex ⟨x, hx, lt_of_not_le hc⟩
    have hstd := stdPartition_of_all_false (fun element => decide (element < pe)) a
      (Nat.le_of_lt hfl) hl (fun x hx => by simpa using hall x hx)
    obtain ⟨y, hy⟩ := exists_getElem?_of_lt (show f < a.length by omega)
    have hpvlen : pv < a.length := by omega
    have hflen : f < a.length := by omega
    have hymem : y ∈ segment a f l := mem_segment.2 ⟨f, Nat.le_refl _, hfl, hy⟩
    refine ⟨(a.set pv y).set f pe, f + 1, ?_, set_set_perm_of_getElem? hpe hy,
      sameOutside_set_set hpvlen hflen hpv hpvl (Nat.le_refl _) hfl, by omega, by omega,
      fun h => h, ?_, Or.inr ⟨hall, rfl, ?_⟩⟩
    · simp only [ModifiedPartition, Memory.read, readAt_of_getElem? hpe, bind, Except.bind, hstd]
      rw [if_pos (by omega)]
      simp only [Memory.swap_main_ok hpe hy]
      rfl
    · intro x hx
      obtain ⟨j, hj1, hj2, hj3⟩ := mem_segment.1 hx
      rw [getElem?_set_set hpvlen hflen, if_neg (by omega)] at hj3
      by_cases hpj : pv = j
      · rw [if_pos hpj] at hj3
        have : y = x := Option.some.inj hj3
        rw [← this]; exact hall y hymem
      · rw [if_neg hpj] at hj3
        exact hall x (mem_segment.2 ⟨j, by omega, hj2, hj3⟩)
    · rw [getElem?_set_set hpvlen hflen, if_pos rfl]

/-! ## The sorted copy -/

theorem stdSort_perm [LinearOrder α] (a : List α) : (stdSort a).Perm a :=
  List.perm_insertionSort _ a

theorem stdSort_sorted [LinearOrder α] (a : List α) : (stdSort a).Sorted (· ≤ ·) :=
  List.sorted_insertionSort _ a

theorem stdSort_length [LinearOrder α] (a : List α) : (stdSort a).length = a.length :=
  (stdSort_perm a).length_eq

theorem stdSort_congr [LinearOrder α] {a b : List α} (h : a.Perm b) : stdSort a = stdSort b :=
  List.eq_of_perm_of_sorted (((stdSort_perm a).trans h).trans (stdSort_perm b).symm)
    (stdSort_sorted a) (stdSort_sorted b)

theorem stdSort_append [LinearOrder α] {L R : List α} (h : ∀ x ∈ L, ∀ y ∈ R, x ≤ y) :
    stdSort (L ++ R) = stdSort L ++ stdSort R := by
  apply List.eq_of_perm_of_sorted _ (stdSort_sorted _)
  · show List.Pairwise (· ≤ ·) (stdSort L ++ stdSort R)
    rw [List.pairwise_append]
    refine ⟨stdSort_sorted L, stdSort_sorted R, fun x hx y hy => ?_⟩
    exact h x ((stdSort_perm L).subset hx) y ((stdSort_perm R).subset hy)
  · exact (stdSort_perm _).trans ((stdSort_perm L).symm.append (stdSort_perm R).symm)

theorem stdSort_singleton [LinearOrder α] (x : α) : stdSort [x] = [x] := rfl

theorem sorted_split_at [LinearOrder α] {s : List α} (hs : s.Sorted (· ≤ ·)) {k : Nat} {v : α}
    (hv : s[k]? = some v) :
    (∀ x ∈ s.take k, x ≤ v) ∧ (∀ x ∈ s.drop k, v ≤ x) ∧ (∀ x ∈ s.take (k + 1), x ≤ v) := by
  have hk := lt_length_of_getElem? hv
  have hd : s.drop k = v :: s.drop (k + 1) := by
    rw [List.drop_eq_getElem_cons hk]
    congr 1
    have := List.getElem?_eq_getElem hk
    rw [hv] at this
    exact (Option.some.inj this).symm
  have e : s = s.take k ++ v :: s.drop (k + 1) := by
    rw [← hd]; exact (List.take_append_drop k s).symm
  have hp : List.Pairwise (· ≤ ·) (s.take k ++ v :: s.drop (k + 1)) := by
    rw [← e]; exact hs
  rw [List.pairwise_append] at hp
  obtain ⟨_, h2, h3⟩ := hp
  have h4 : ∀ b ∈ s.drop (k + 1), v ≤ b := fun b hb => List.rel_of_pairwise_cons h2 hb
  have ht : ∀ x ∈ s.take k, x ≤ v := fun x hx => h3 x hx v (List.mem_cons_self _ _)
  refine ⟨ht, ?_, ?_⟩
  · intro x hx
    rw [hd] at hx
    rcases List.mem_cons.1 hx with rfl | hx
    · exact le_refl _
    · exact h4 x hx
  · intro x hx
    have e2 : s.take (k + 1) = s.take k ++ [v] := by
      rw [List.take_succ, hv]; rfl
    rw [e2] at hx
    rcases List.mem_append.1 hx with hx | hx
    · exact ht x hx
    · simp only [List.mem_singleton] at hx
      rw [hx]

/-- Rank characterisation of the element at position `k` of the sorted copy. -/
theorem stdSort_rank [LinearOrder α] (a : List α) {k : Nat} {v : α}
    (hv : (stdSort a)[k]? = some v) :
    v ∈ a ∧ a.countP (fun x => decide (x < v)) < k + 1 ∧
      k + 1 ≤ a.countP (fun x => decide (x ≤ v)) := by
  have hk := lt_length_of_getElem? hv
  obtain ⟨h1, h2, h3⟩ := sorted_split_at (stdSort_sorted a) hv
  have hmem : v ∈ stdSort a := List.mem_iff_getElem?.2 ⟨k, hv⟩
  refine ⟨(stdSort_perm a).subset hmem, ?_, ?_⟩
  · rw [← (stdSort_perm a).countP_eq, ← List.take_append_drop k (stdSort a), List.countP_append]
    have e0 : (List.drop k (stdSort a)).countP (fun x => decide (x < v)) = 0 := by
      rw [List.countP_eq_zero]
      intro x hx
      have := h2 x hx
      simpa using this
    rw [e0]
    have := List.countP_le_length (fun x => decide (x < v)) (l := List.take k (stdSort a))
    have hl : (List.take k (stdSort a)).length = k := by
      rw [List.length_take]; omega
    omega
  · rw [← (stdSort_perm a).countP_eq, ← List.take_append_drop (k + 1) (stdSort a),
      List.countP_append]
    have e1 : (List.take (k + 1) (stdSort a)).countP (fun x => decide (x ≤ v)) =
        (List.take (k + 1) (stdSort a)).length := by
      rw [List.countP_eq_length]
      intro x hx
      have := h3 x hx
      simpa using this
    rw [e1, List.length_take]
    omega

/-! ## Conversions between `int` and `std::size_t` -/

theorem toInt_of_lt {n : Nat} (h : n < 2147483648) : toInt n = (n : Int) := by
  have h1 : n % 4294967296 = n := Nat.mod_eq_of_lt (by omega)
  simp only [toInt, h1, h, if_true]

theorem toSizeT_natCast {n : Nat} (h : n < 18446744073709551616) : toSizeT (n : Int) = n := by
  unfold toSizeT
  omega

theorem toSizeT_toInt_of_lt {n : Nat} (h : n < 2147483648) : toSizeT (toInt n) = n := by
  rw [toInt_of_lt h, toSizeT_natCast (by omega)]

/-! ## Randomized select -/

theorem RandomizedPartition_ok [LinearOrder α] (rnd : RandomSource) (hr : rnd.InRange) (k : Nat)
    (a : List α) {f l : Nat} (hfl : f < l) (hl : l ≤ a.length) :
    ∃ b r pe, RandomizedPartition rnd k a f l = .ok (b, r) ∧ b.Perm a ∧ SameOutside a b f l ∧
      f < r ∧ r ≤ l ∧ (f + 1 < l → r < l) ∧
      (∀ x ∈ segment b f r, x ≤ pe) ∧ (∀ x ∈ segment b r l, pe ≤ x) := by
  have hrn := (hr k 0 (l - f - 1) (Nat.zero_le _)).2
  obtain ⟨pe, hpe⟩ :=
    exists_getElem?_of_lt (show f + rnd.next k 0 (l - f - 1) < a.length by omega)
  obtain ⟨b, r, h1, h2, h3, h4, h5, h6, h7, h8⟩ :=
    ModifiedPartition_main a [] hfl hl (Nat.le_add_right f _)
      (show f + rnd.next k 0 (l - f - 1) < l by omega) hpe
  refine ⟨b, r, pe, ?_, h2, h3, h4, h5, h6, ?_, h7⟩
  · simp only [RandomizedPartition, h1, bind, Except.bind]
    rfl
  · rcases h8 with ⟨_, h9⟩ | ⟨_, h9, h10⟩
    · exact fun x hx => le_of_lt (h9 x hx)
    · intro x hx
      obtain ⟨j, hj1, hj2, hj3⟩ := mem_segment.1 hx
      have : j = f := by omega
      subst this
      rw [h10] at hj3
      rw [Option.some.inj hj3]

theorem NonRecursiveRandomizedSelect_spec [LinearOrder α] (rnd : RandomSource)
    (hr : rnd.InRange) :
    ∀ (fuel k : Nat) (a : List α) (f l i : Nat), f < l → l ≤ a.length → i < l - f →
      l - f ≤ fuel → l - f ≤ 2147483648 →
      ∃ b pos, NonRecursiveRandomizedSelect rnd fuel k a f l i = .ok (b, pos) ∧ b.Perm a ∧
        SameOutside a b f l ∧ f ≤ pos ∧ pos < l ∧
        b[pos]? = (stdSort (segment a f l))[i]? := by
  intro fuel
  induction fuel with
  | zero => intro k a f l i hfl _ _ hfuel _; omega
  | succ fuel ih =>
    intro k a f l i hfl hl hi hfuel hb
    by_cases h1 : f + 1 = l
    · refine ⟨a, f, ?_, List.Perm.refl _, SameOutside.refl _ _ _, Nat.le_refl _, hfl, ?_⟩
      · simp only [NonRecursiveRandomizedSelect, h1, ne_eq, not_true_eq_false, if_false]
        rfl
      · obtain ⟨x, hx⟩ := exists_getElem?_of_lt (show f < a.length by omega)
        have hi0 : i = 0 := by omega
        have hseg : segment a f l = [x] := by
          apply List.ext_getElem?
          intro n
          rw [getElem?_segment]
          cases n with
          | zero => rw [if_pos (by omega)]; simpa using hx
          | succ n => rw [if_neg (by omega)]; simp
        rw [hseg, stdSort_singleton, hi0, hx]
        rfl
    · obtain ⟨b, r, pe, e1, e2, e3, e4, e5, e6, e7, e8⟩ :=
        RandomizedPartition_ok rnd hr k a hfl hl
      have hrl : r < l := e6 (by omega)
      have hlb : l ≤ b.length := by rw [e3.1]; exact hl
      have hsplit := segment_split b (Nat.le_of_lt e4) (Nat.le_of_lt hrl)
      have hsort : stdSort (segment a f l) =
          stdSort (segment b f r) ++ stdSort (segment b r l) := by
        rw [← stdSort_congr (e3.segment_perm (Nat.le_of_lt hfl) e2), hsplit]
        exact stdSort_append (fun x hx y hy => le_trans (e7 x hx) (e8 y hy))
      have hlenL : (stdSort (segment b f r)).length = r - f := by
        rw [stdSort_length, segment_length (by omega)]
      have hconv : toSizeT (toInt (r - f)) = r - f := toSizeT_toInt_of_lt (by omega)
      by_cases h2 : i < r - f
      · obtain ⟨c, pos, g1, g2, g3, g4, g5, g6⟩ :=
          ih (k + 1) b f r i e4 (by omega) h2 (by omega) (by omega)
        refine ⟨c, pos, ?_, g2.trans e2, ?_, g4, by omega, ?_⟩
        · simp only [NonRecursiveRandomizedSelect, ne_eq, h1, not_false_eq_true, if_true, e1,
            bind, Except.bind, hconv, h2]
          exact g1
        · exact e3.trans (g3.mono (Nat.le_refl _) (Nat.le_of_lt hrl))
        · rw [g6, hsort, List.getElem?_append_left (by omega)]
      · obtain ⟨c, pos, g1, g2, g3, g4, g5, g6⟩ :=
          ih (k + 1) b r l (i - (r - f)) hrl hlb (by omega) (by omega) (by omega)
        refine ⟨c, pos, ?_, g2.trans e2, ?_, by omega, g5, ?_⟩
        · simp only [NonRecursiveRandomizedSelect, ne_eq, h1, not_false_eq_true, if_true, e1,
            bind, Except.bind, hconv, h2, if_false]
          exact g1
        · exact e3.trans (g3.mono (Nat.le_of_lt e4) (Nat.le_refl _))
        · rw [g6, hsort, List.getElem?_append_right (by omega), hlenL]

theorem CheckBoundaries_ok {array : List α} {i : Nat} (h1 : 1 ≤ i) (h2 : i ≤ array.length) :
    CheckBoundaries array i = .ok () := by
  have hne : array ≠ [] := by
    intro h; subst h; simp at h2; omega
  have h3 : ¬ (i > array.length) := by omega
  have h4 : ¬ (i < 1) := by omega
  simp [CheckBoundaries, hne, h3, h4]

theorem CheckBoundaries_error {array : List α} {i : Nat} (h : array = [] ∨ i < 1 ∨ array.length < i) :
    CheckBoundaries array i = .error .invalidRank := by
  unfold CheckBoundaries
  rcases h with h | h | h
  · subst h; simp
  · simp [h]
  · simp [h]

theorem RandomizedSelect_eq [LinearOrder α] (rnd : RandomSource) (hr : rnd.InRange)
    (array : List α) (i : Nat) (h1 : 1 ≤ i) (h2 : i ≤ array.length)
    (hb : array.length ≤ 2147483648) :
    ∃ v, (stdSort array)[i - 1]? = some v ∧ RandomizedSelect rnd array i = .ok v := by
  obtain ⟨b, pos, g1, g2, g3, g4, g5, g6⟩ :=
    NonRecursiveRandomizedSelect_spec rnd hr array.length 0 array 0 array.length (i - 1)
      (by omega) (Nat.le_refl _) (by omega) (by omega) (by omega)
  obtain ⟨v, hv⟩ := exists_getElem?_of_lt (show pos < b.length by rw [g3.1]; exact g5)
  rw [segment_whole] at g6
  refine ⟨v, by rw [← g6, hv], ?_⟩
  simp only [RandomizedSelect, CheckBoundaries_ok h1 h2, g1, bind, Except.bind]
  exact readAt_of_getElem? hv

theorem NaiveSelect_eq [LinearOrder α] (array : List α) (i : Nat) (h1 : 1 ≤ i)
    (h2 : i ≤ array.length) (hb : i ≤ 2147483647) :
    ∃ v, (stdSort array)[i - 1]? = some v ∧ NaiveSelect array i = .ok v := by
  obtain ⟨v, hv⟩ :=
    exists_getElem?_of_lt (show i - 1 < (stdSort array).length by rw [stdSort_length]; omega)
  refine ⟨v, hv, ?_⟩
  have h3 : ¬ ((i : Int) - 1 < -2147483648) := by omega
  have h4 : toSizeT ((i : Int) - 1) = i - 1 := by
    have e : (i : Int) - 1 = ((i - 1 : Nat) : Int) := by omega
    rw [e, toSizeT_natCast (by omega)]
  simp only [NaiveSelect, CheckBoundaries_ok h1 h2, bind, Except.bind,
    toInt_of_lt (show i < 2147483648 by omega), h3, if_false, h4]
  exact readAt_of_getElem? hv

/-! ## `InsertionSort` and `Median`: success, permutation, frame -/

theorem InsertionSort.inner_ok [LinearOrder α] (first : Nat) :
    ∀ (j : Nat) (a : List α), j < a.length →
      ∃ b, InsertionSort.inner first j a = .ok b ∧ b.Perm a ∧ SameOutside a b first (j + 1) := by
  intro j
  induction j with
  | zero => intro a _; exact ⟨a, rfl, List.Perm.refl _, SameOutside.refl _ _ _⟩
  | succ j ih =>
    intro a hj
    by_cases h1 : j + 1 > first
    · obtain ⟨x, hx⟩ := exists_getElem?_of_lt (show j < a.length by omega)
      obtain ⟨y, hy⟩ := exists_getElem?_of_lt hj
      by_cases h2 : x > y
      · have hlen : j < ((a.set j y).set (j + 1) x).length := by simp; omega
        obtain ⟨b, g1, g2, g3⟩ := ih ((a.set j y).set (j + 1) x) hlen
        refine ⟨b, ?_, g2.trans (set_set_perm_of_getElem? hx hy), ?_⟩
        · simp only [InsertionSort.inner, h1, if_true, readAt_of_getElem? hx,
            readAt_of_getElem? hy, bind, Except.bind, h2, swapAt_ok hx hy]
          exact g1
        · have s1 : SameOutside a ((a.set j y).set (j + 1) x) first (j + 1 + 1) :=
            sameOutside_set_set (by omega) hj (by omega) (by omega) (by omega) (by omega)
          exact s1.trans (g3.mono (Nat.le_refl _) (by omega))
      · refine ⟨a, ?_, List.Perm.refl _, SameOutside.refl _ _ _⟩
        simp only [InsertionSort.inner, h1, if_true, readAt_of_getElem? hx,
          readAt_of_getElem? hy, bind, Except.bind, h2, if_false]
        rfl
    · refine ⟨a, ?_, List.Perm.refl _, SameOutside.refl _ _ _⟩
      simp only [InsertionSort.inner, h1, if_false]
      rfl

theorem InsertionSort.outer_ok [LinearOrder α] (first : Nat) :
    ∀ (steps i : Nat) (a : List α), i + steps ≤ a.length →
      ∃ b, InsertionSort.outer first steps i a = .ok b ∧ b.Perm a ∧
        SameOutside a b first (i + steps) := by
  intro steps
  induction steps with
  | zero => intro i a _; exact ⟨a, rfl, List.Perm.refl _, SameOutside.refl _ _ _⟩
  | succ steps ih =>
    intro i a h
    obtain ⟨b, g1, g2, g3⟩ := InsertionSort.inner_ok first i a (by omega)
    obtain ⟨c, k1, k2, k3⟩ := ih (i + 1) b (by rw [g3.1]; omega)
    refine ⟨c, ?_, k2.trans g2, ?_⟩
    · simp only [InsertionSort.outer, g1, bind, Except.bind]
      exact k1
    · exact (g3.mono (Nat.le_refl _) (by omega)).trans (k3.mono (Nat.le_refl _) (by omega))

theorem InsertionSort_ok [LinearOrder α] (a : List α) (f l : Nat) (hl : l ≤ a.length) :
    ∃ b, InsertionSort a f l = .ok b ∧ b.Perm a ∧ SameOutside a b f l := by
  by_cases hfl : f < l
  · obtain ⟨b, g1, g2, g3⟩ :=
      InsertionSort.outer_ok f (l - (f + 1)) (f + 1) a (by omega)
    have e : f + 1 + (l - (f + 1)) = l := by omega
    rw [e] at g3
    exact ⟨b, g1, g2, g3⟩
  · have e : l - (f + 1) = 0 := by omega
    refine ⟨a, ?_, List.Perm.refl _, SameOutside.refl _ _ _⟩
    simp only [InsertionSort, e, InsertionSort.outer]
    rfl

theorem Median_ok [LinearOrder α] (a : List α) {f l : Nat} (hfl : f < l) (hl : l ≤ a.length)
    (hb : (l - f - 1) / 2 ≤ 2147483647) :
    ∃ b v, Median a f l = .ok (b, v) ∧ b.Perm a ∧ SameOutside a b f l ∧
      b[f + (l - f - 1) / 2]? = some v := by
  obtain ⟨b, g1, g2, g3⟩ := InsertionSort_ok a f l hl
  obtain ⟨v, hv⟩ :=
    exists_getElem?_of_lt (show f + (l - f - 1) / 2 < b.length by rw [g3.1]; omega)
  refine ⟨b, v, ?_, g2, g3, hv⟩
  have hb1 : ¬ ((l - f - 1) / 2 > 2147483647) := by omega
  simp only [Median, g1, readAt_of_getElem? hv, bind, Except.bind, hb1, if_false]
  rfl

theorem mem_segment_of_frame_perm {a b : List α} {f l : Nat} (h : SameOutside a b f l)
    (hp : b.Perm a) (hfl : f ≤ l) {x : α} : x ∈ segment b f l ↔ x ∈ segment a f l :=
  (h.segment_perm hfl hp).mem_iff

theorem collectMedians_ok [LinearOrder α] (f l : Nat) :
    ∀ (groups : List (Nat × Nat)) (a medians : List α),
      (∀ g ∈ groups, f ≤ g.1 ∧ g.1 < g.2 ∧ g.2 ≤ l ∧ g.2 - g.1 ≤ 11) → l ≤ a.length →
      ∃ b ms, collectMedians a groups medians = .ok (b, medians ++ ms) ∧
        ms.length = groups.length ∧ b.Perm a ∧ SameOutside a b f l ∧
        ∀ v ∈ ms, v ∈ segment a f l := by
  intro groups
  induction groups with
  | nil =>
    intro a medians _ _
    refine ⟨a, [], ?_, rfl, List.Perm.refl _, SameOutside.refl _ _ _, by simp⟩
    simp only [collectMedians, List.append_nil]
    rfl
  | cons g groups ih =>
    intro a medians hg hl
    obtain ⟨hg1, hg2, hg3, hg4⟩ := hg g (List.mem_cons_self _ _)
    have hfl : f ≤ l := by omega
    obtain ⟨b, v, g1, g2, g3, g4⟩ :=
      Median_ok a hg2 (show g.2 ≤ a.length by omega) (by omega)
    have g3' : SameOutside a b f l := g3.mono hg1 hg3
    obtain ⟨c, ms, k1, k2, k3, k4, k5⟩ :=
      ih b (medians ++ [v]) (fun g' hg' => hg g' (List.mem_cons_of_mem _ hg'))
        (by rw [g3.1]; exact hl)
    refine ⟨c, v :: ms, ?_, by simp [k2], k3.trans g2, g3'.trans k4, ?_⟩
    · simp only [collectMedians, g1, bind, Except.bind, k1, List.append_assoc,
        List.singleton_append]
    · intro w hw
      rcases List.mem_cons.1 hw with rfl | hw
      · rw [← mem_segment_of_frame_perm g3' g2 hfl]
        exact mem_segment.2 ⟨g.1 + (g.2 - g.1 - 1) / 2, by omega, by omega, g4⟩
      · rw [← mem_segment_of_frame_perm g3' g2 hfl]
        exact k5 w hw

theorem SplitArray_length (f l : Nat) :
    (SplitArray f l).length = (10 * (l - f) + 99) / 110 := by
  simp [SplitArray]

theorem SplitArray_mem {f l : Nat} {g : Nat × Nat} (h : g ∈ SplitArray f l) :
    ∃ i, i < (10 * (l - f) + 99) / 110 ∧ g.1 = f + i * 11 ∧
      g.2 = f + min ((i + 1) * 11) (l - f) := by
  simp only [SplitArray, List.mem_map, List.mem_range] at h
  obtain ⟨i, hi, rfl⟩ := h
  exact ⟨i, hi, rfl, rfl⟩

theorem SplitArray_group_bounds {f l : Nat} {g : Nat × Nat} (h : g ∈ SplitArray f l) :
    f ≤ g.1 ∧ g.1 < g.2 ∧ g.2 ≤ l ∧ g.2 - g.1 ≤ 11 := by
  obtain ⟨i, hi, h1, h2⟩ := SplitArray_mem h
  rw [h1, h2]
  omega

/-! ## `ModifiedPartition` with the pivot in another container, and `Select` -/

theorem Memory.swap_aux_main_ok {a aux : List α} {k j : Nat} {x y : α} (hx : aux[k]? = some x)
    (hy : a[j]? = some y) :
    (Memory.mk a aux).swap (.aux k) (.main j) = .ok ⟨a.set j x, aux.set k y⟩ := by
  have hk := lt_length_of_getElem? hx
  have hj := lt_length_of_getElem? hy
  simp only [Memory.swap, Memory.read, Memory.write, readAt_of_getElem? hx,
    readAt_of_getElem? hy, writeAt_ok y hk, writeAt_ok x hj, bind, Except.bind, pure,
    Except.pure]

theorem ModifiedPartition_aux [LinearOrder α] (a aux : List α) {f l k : Nat} {pe : α}
    (hfl : f < l) (hl : l ≤ a.length) (hpe : aux[k]? = some pe) (hmem : pe ∈ segment a f l) :
    ∃ b aux1 r, ModifiedPartition ⟨a, aux⟩ f l (.aux k) = .ok (⟨b, aux1⟩, r) ∧
      SameOutside a b f l ∧ f < r ∧ r ≤ l ∧ (f + 1 < l → r < l) ∧
      (∀ x ∈ segment b f l, x ∈ segment a f l) := by
  by_cases hex : ∃ x ∈ segment a f l, x < pe
  · obtain ⟨b, L, R, h1, h2, h3, h4, h5, h6⟩ :=
      stdPartition_ok (fun element => decide (element < pe)) a (Nat.le_of_lt hfl) hl
    have hlb : l ≤ b.length := by rw [h6.1]; exact hl
    have hsp := h6.segment_perm (Nat.le_of_lt hfl) h5
    have hsp2 := hsp
    rw [h2] at hsp
    have hL : 0 < L.length := by
      obtain ⟨x, hx, hxp⟩ := hex
      have : x ∈ L ++ R := hsp.symm.subset hx
      rcases List.mem_append.1 this with h | h
      · exact List.length_pos_of_mem h
      · have := h4 x h
        simp [hxp] at this
    have hR : 0 < R.length := by
      have : pe ∈ L ++ R := hsp.symm.subset hmem
      rcases List.mem_append.1 this with h | h
      · have := h3 pe h
        simp at this
      · exact List.length_pos_of_mem h
    have hlen : (L ++ R).length = l - f := by rw [← h2, segment_length hlb]
    simp only [List.length_append] at hlen
    refine ⟨b, aux, f + L.length, ?_, h6, by omega, by omega, fun _ => by omega,
      fun x hx => hsp2.subset hx⟩
    simp only [ModifiedPartition, Memory.read, readAt_of_getElem? hpe, bind, Except.bind, h1]
    rw [if_neg (by omega)]
    rfl
  · have hall : ∀ x ∈ segment a f l, pe ≤ x := by
      intro x hx
      by_contra hc
      exact hex ⟨x, hx, lt_of_not_le hc⟩
    have hstd := stdPartition_of_all_false (fun element => decide (element < pe)) a
      (Nat.le_of_lt hfl) hl (fun x hx => by simpa using hall x hx)
    have hflen : f < a.length := by omega
    obtain ⟨y, hy⟩ := exists_getElem?_of_lt hflen
    refine ⟨a.set f pe, aux.set k y, f + 1, ?_, ?_, by omega, by omega, fun h => h, ?_⟩
    · simp only [ModifiedPartition, Memory.read, readAt_of_getElem? hpe, bind, Except.bind, hstd]
      rw [if_pos (by omega)]
      simp only [Memory.swap_aux_main_ok hpe hy]
      rfl
    · refine ⟨by simp, fun j hj => ?_⟩
      rw [List.getElem?_set, if_neg (by omega)]
    · intro x hx
      obtain ⟨j, hj1, hj2, hj3⟩ := mem_segment.1 hx
      rw [List.getElem?_set] at hj3
      by_cases hfj : f = j
      · rw [if_pos hfj, if_pos hflen] at hj3
        rw [← Option.some.inj hj3]; exact hmem
      · rw [if_neg hfj] at hj3
        exact mem_segment.2 ⟨j, hj1, hj2, hj3⟩

theorem Select_spec [LinearOrder α] :
    ∀ (fuel : Nat) (a : List α) (f l i : Nat), f < l → l ≤ a.length → i < l - f →
      l - f ≤ fuel →
      ∃ b pos, Select fuel a f l i = .ok (b, pos) ∧ SameOutside a b f l ∧ f ≤ pos ∧ pos < l ∧
        ∀ x ∈ segment b f l, x ∈ segment a f l := by
  intro fuel
  induction fuel with
  | zero => intro a f l i hfl _ _ hfuel; omega
  | succ fuel ih =>
    intro a f l i hfl hl hi hfuel
    by_cases h1 : f + 1 = l
    · refine ⟨a, f, ?_, SameOutside.refl _ _ _, Nat.le_refl _, hfl, fun x hx => hx⟩
      simp only [Select, h1, if_true]
      rfl
    · obtain ⟨a1, ms, c1, c2, c3, c4, c5⟩ :=
        collectMedians_ok f l (SplitArray f l) a [] (fun g hg => SplitArray_group_bounds hg) hl
      rw [List.nil_append] at c1
      rw [SplitArray_length] at c2
      have hm1 : 0 < ms.length := by omega
      have hm2 : ms.length < l - f := by omega
      obtain ⟨ms1, k, s1, s2, s3, s4, s5⟩ :=
        ih ms 0 ms.length ((ms.length - 1) / 2) hm1 (Nat.le_refl _) (by omega) (by omega)
      obtain ⟨pe, hpe⟩ := exists_getElem?_of_lt (show k < ms1.length by rw [s2.1]; exact s4)
      have hl1 : l ≤ a1.length := by rw [c4.1]; exact hl
      have hpe1 : pe ∈ segment a1 f l := by
        rw [mem_segment_of_frame_perm c4 c3 (Nat.le_of_lt hfl)]
        apply c5
        have : pe ∈ segment ms 0 ms.length :=
          s5 pe (mem_segment.2 ⟨k, Nat.zero_le _, s4, hpe⟩)
        rw [segment_whole] at this
        exact this
      obtain ⟨b, aux1, r, m1, m2, m3, m4, m5, m6⟩ := ModifiedPartition_aux a1 ms1 hfl hl1 hpe hpe1
      have hrl : r < l := m5 (by omega)
      have hlb : l ≤ b.length := by rw [m2.1]; exact hl1
      have hback : ∀ x ∈ segment b f l, x ∈ segment a f l := by
        intro x hx
        rw [← mem_segment_of_frame_perm c4 c3 (Nat.le_of_lt hfl)]
        exact m6 x hx
      by_cases h2 : i < r - f
      · obtain ⟨c, pos, g1, g2, g3, g4, g5⟩ := ih b f r i m3 (by omega) h2 (by omega)
        refine ⟨c, pos, ?_, ?_, g3, by omega, ?_⟩
        · simp only [Select, h1, if_false, c1, s1, m1, bind, Except.bind, h2, if_true]
          exact g1
        · exact (c4.trans m2).trans (g2.mono (Nat.le_refl _) (Nat.le_of_lt hrl))
        · intro x hx
          rw [segment_split c (Nat.le_of_lt m3) (Nat.le_of_lt hrl)] at hx
          apply hback
          rw [segment_split b (Nat.le_of_lt m3) (Nat.le_of_lt hrl)]
          rcases List.mem_append.1 hx with hx | hx
          · exact List.mem_append_left _ (g5 x hx)
          · rw [g2.segment_right (Nat.le_refl _)] at hx
            exact List.mem_append_right _ hx
      · obtain ⟨c, pos, g1, g2, g3, g4, g5⟩ :=
          ih b r l (i - (r - f)) hrl hlb (by omega) (by omega)
        refine ⟨c, pos, ?_, ?_, by omega, g4, ?_⟩
        · simp only [Select, h1, if_false, c1, s1, m1, bind, Except.bind, h2]
          exact g1
        · exact (c4.trans m2).trans (g2.mono (Nat.le_of_lt m3) (Nat.le_refl _))
        · intro x hx
          rw [segment_split c (Nat.le_of_lt m3) (Nat.le_of_lt hrl)] at hx
          apply hback
          rw [segment_split b (Nat.le_of_lt m3) (Nat.le_of_lt hrl)]
          rcases List.mem_append.1 hx with hx | hx
          · rw [g2.segment_left (Nat.le_refl _)] at hx
            exact List.mem_append_left _ hx
          · exact List.mem_append_right _ (g5 x hx)

theorem DeterminedSelect_ok [LinearOrder α] (array : List α) (i : Nat) (h1 : 1 ≤ i)
    (h2 : i ≤ array.length) : ∃ v, v ∈ array ∧ DeterminedSelect array i = .ok v := by
  obtain ⟨b, pos, g1, g2, g3, g4, g5⟩ :=
    Select_spec array.length array 0 array.length (i - 1) (by omega) (Nat.le_refl _) (by omega)
      (by omega)
  obtain ⟨v, hv⟩ := exists_getElem?_of_lt (show pos < b.length by rw [g2.1]; exact g4)
  refine ⟨v, ?_, ?_⟩
  · have := g5 v (mem_segment.2 ⟨pos, g3, g4, hv⟩)
    rw [segment_whole] at this
    exact this
  · simp only [DeterminedSelect, CheckBoundaries_ok h1 h2, g1, bind, Except.bind]
    exact readAt_of_getElem? hv

theorem lowestSource_inRange : lowestSource.InRange :=
  fun _ _ _ h => ⟨Nat.le_refl _, h⟩

theorem highestSource_inRange : highestSource.InRange :=
  fun _ _ _ h => ⟨h, Nat.le_refl _⟩

/-! ## Behaviour beyond the range of `int` -/

theorem readAt_of_length_le {a : List α} {i : Nat} (h : a.length ≤ i) :
    readAt a i = .error .outOfRange := by
  have e : a[i]? = none := List.getElem?_eq_none h
  simp [readAt, e]

theorem set_of_getElem? {a : List α} {i : Nat} {v : α} (h : a[i]? = some v) :
    a.set i v = a := by
  apply List.ext_getElem?
  intro n
  rw [List.getElem?_set]
  by_cases hn : i = n
  · subst hn; rw [if_pos rfl, if_pos (lt_length_of_getElem? h), h]
  · rw [if_neg hn]

theorem toInt_of_ge {n : Nat} (h1 : 2147483648 ≤ n) (h2 : n < 4294967296) :
    toInt n = (n : Int) - 4294967296 := by
  have e : n % 4294967296 = n := Nat.mod_eq_of_lt h2
  have h3 : ¬ n < 2147483648 := by omega
  simp only [toInt, e, h3, if_false]

theorem toSizeT_of_neg {z : Int} (h1 : -18446744073709551616 ≤ z) (h2 : z < 0) :
    toSizeT z = (z + 18446744073709551616).toNat := by
  unfold toSizeT
  omega

/-- A rank beyond the greatest `int` (and below `2^32`): `static_cast<int>(i) - 1` is negative,
its conversion for `at` is at least `2^64 - 2^31`, and `at` throws. -/
theorem NaiveSelect_of_rank_beyond_int [LinearOrder α] (array : List α) (i : Nat)
    (h1 : 2147483648 < i) (h2 : i < 4294967296) (h3 : i ≤ array.length)
    (h4 : array.length < 18446744071562067968) : NaiveSelect array i = .error .outOfRange := by
  have hc := CheckBoundaries_ok (show 1 ≤ i by omega) h3
  have e1 : toInt i = (i : Int) - 4294967296 := toInt_of_ge (by omega) h2
  have e2 : ¬ ((i : Int) - 4294967296 - 1 < -2147483648) := by omega
  have e3 : toSizeT ((i : Int) - 4294967296 - 1) =
      ((i : Int) - 4294967296 - 1 + 18446744073709551616).toNat :=
    toSizeT_of_neg (by omega) (by omega)
  simp only [NaiveSelect, hc, bind, Except.bind, e1, e2, if_false, e3]
  apply readAt_of_length_le
  rw [stdSort_length]
  omega

theorem hoarePartition_replicate_append (p : α → Bool) (x y : α) (hx : p x = true)
    (hy : p y = false) :
    ∀ (n fuel : Nat), n + 1 ≤ fuel →
      hoarePartition p fuel (List.replicate n x ++ [y]) = (List.replicate n x ++ [y], n) := by
  intro n
  induction n with
  | zero =>
    intro fuel h
    cases fuel with
    | zero => omega
    | succ fuel => simp [hoarePartition, hy, splitAtLastSat]
  | succ n ih =>
    intro fuel h
    cases fuel with
    | zero => omega
    | succ fuel =>
      have e := ih fuel (by omega)
      have hl : List.replicate (n + 1) x ++ [y] = x :: (List.replicate n x ++ [y]) := by
        rw [List.replicate_succ, List.cons_append]
      rw [hl]
      show (if p x = true then
          (x :: (hoarePartition p fuel (List.replicate n x ++ [y])).1,
            (hoarePartition p fuel (List.replicate n x ++ [y])).2 + 1)
        else
          match splitAtLastSat p (List.replicate n x ++ [y]) with
          | none => (x :: (List.replicate n x ++ [y]), 0)
          | some (ys, z, zs) =>
            (z :: (hoarePartition p fuel ys).1 ++ x :: zs, (hoarePartition p fuel ys).2 + 1)) =
        (x :: (List.replicate n x ++ [y]), n + 1)
      rw [if_pos hx, e]

theorem getElem?_replicate_append_left (x y : α) {n j : Nat} (h : j < n) :
    (List.replicate n x ++ [y])[j]? = some x := by
  rw [List.getElem?_append_left (by simpa using h)]
  exact List.getElem?_replicate_of_lt h

theorem getElem?_replicate_append_last (x y : α) (n : Nat) :
    (List.replicate n x ++ [y])[n]? = some y := by
  rw [List.getElem?_append_right (by simp)]
  simp

theorem length_replicate_append (x y : α) (n : Nat) :
    (List.replicate n x ++ [y]).length = n + 1 := by
  simp

/-- First iteration: the pivot is the larger element at the end, nothing moves and the boundary
is the position `n`. -/
theorem ModifiedPartition_replicate_append [LinearOrder α] (x y : α) (hxy : x < y) (n : Nat)
    (hn : 1 ≤ n) :
    ModifiedPartition ⟨List.replicate n x ++ [y], []⟩ 0 (n + 1) (.main n) =
      .ok (⟨List.replicate n x ++ [y], []⟩, n) := by
  have hlen := length_replicate_append x y n
  have hseg : segment (List.replicate n x ++ [y]) 0 (n + 1) = List.replicate n x ++ [y] := by
    have := segment_whole (List.replicate n x ++ [y])
    rw [hlen] at this
    exact this
  have hh := hoarePartition_replicate_append (fun element => decide (element < y)) x y
    (by simpa using hxy) (by simp) n (n + 1) (Nat.le_refl _)
  have hstd : stdPartition (fun element => decide (element < y)) (List.replicate n x ++ [y]) 0
      (n + 1) = .ok (List.replicate n x ++ [y], n) := by
    have hc : 0 ≤ n + 1 ∧ n + 1 ≤ (List.replicate n x ++ [y]).length := by
      rw [hlen]; exact ⟨Nat.zero_le _, Nat.le_refl _⟩
    have hd : List.drop (n + 1) (List.replicate n x ++ [y]) = [] :=
      List.drop_of_length_le (by rw [hlen])
    unfold stdPartition
    rw [if_pos hc]
    simp only [hseg, hlen, hh, List.take_zero, List.nil_append, hd, List.append_nil,
      Nat.zero_add]
  have hne : ¬ (n - 0 = 0) := by omega
  simp only [ModifiedPartition, Memory.read, readAt_of_getElem?
    (getElem?_replicate_append_last x y n), bind, Except.bind, hstd, hne, if_false]
  rfl

/-- Later iterations: inside the equal elements the pivot is not above any element, the guard
exchanges two equal elements and the boundary is one past the start. -/
theorem ModifiedPartition_equal_part [LinearOrder α] (x y : α) (n f l : Nat) (hfl : f < l)
    (hl : l ≤ n) :
    ModifiedPartition ⟨List.replicate n x ++ [y], []⟩ f l (.main (l - 1)) =
      .ok (⟨List.replicate n x ++ [y], []⟩, f + 1) := by
  have hlen := length_replicate_append x y n
  have hp : (List.replicate n x ++ [y])[l - 1]? = some x :=
    getElem?_replicate_append_left x y (by omega)
  have hf : (List.replicate n x ++ [y])[f]? = some x :=
    getElem?_replicate_append_left x y (by omega)
  have hall : ∀ z ∈ segment (List.replicate n x ++ [y]) f l,
      (fun element => decide (element < x)) z = false := by
    intro z hz
    obtain ⟨j, _, hj2, hj3⟩ := mem_segment.1 hz
    rw [getElem?_replicate_append_left x y (show j < n by omega)] at hj3
    have : x = z := Option.some.inj hj3
    subst this
    simp
  have hstd := stdPartition_of_all_false (fun element => decide (element < x))
    (List.replicate n x ++ [y]) (Nat.le_of_lt hfl) (by rw [hlen]; omega) hall
  have hsw : (Memory.mk (List.replicate n x ++ [y]) []).swap (.main (l - 1)) (.main f) =
      .ok ⟨((List.replicate n x ++ [y]).set (l - 1) x).set f x, []⟩ :=
    Memory.swap_main_ok hp hf
  rw [set_of_getElem? hp, set_of_getElem? hf] at hsw
  simp only [ModifiedPartition, Memory.read, readAt_of_getElem? hp, bind, Except.bind, hstd,
    Nat.sub_self, if_true, hsw]
  rfl

theorem NonRecursiveRandomizedSelect_equal_part [LinearOrder α] (x y : α) (n : Nat) :
    ∀ (m fuel k f i : Nat), f + (m + 1) ≤ n → m + 1 ≤ fuel → m ≤ i →
      NonRecursiveRandomizedSelect highestSource fuel k (List.replicate n x ++ [y]) f
          (f + (m + 1)) i =
        .ok (List.replicate n x ++ [y], f + m) := by
  intro m
  induction m with
  | zero =>
    intro fuel k f i _ hfuel _
    cases fuel with
    | zero => omega
    | succ fuel =>
      simp only [NonRecursiveRandomizedSelect, Nat.zero_add, ne_eq, not_true_eq_false, if_false,
        Nat.add_zero]
      rfl
  | succ m ih =>
    intro fuel k f i hn hfuel hi
    cases fuel with
    | zero => omega
    | succ fuel =>
      have hne : f + 1 ≠ f + (m + 1 + 1) := by omega
      have hpiv : f + highestSource.next k 0 (f + (m + 1 + 1) - f - 1) = f + (m + 1 + 1) - 1 := by
        show f + (f + (m + 1 + 1) - f - 1) = f + (m + 1 + 1) - 1
        omega
      have hmp := ModifiedPartition_equal_part x y n f (f + (m + 1 + 1)) (by omega) (by omega)
      have hrp : RandomizedPartition highestSource k (List.replicate n x ++ [y]) f
          (f + (m + 1 + 1)) = .ok (List.replicate n x ++ [y], f + 1) := by
        simp only [RandomizedPartition, hpiv, hmp, bind, Except.bind]
        rfl
      have hconv : toSizeT (toInt (f + 1 - f)) = 1 := by
        have : f + 1 - f = 1 := by omega
        rw [this]
        exact toSizeT_toInt_of_lt (by omega)
      have hi1 : ¬ i < 1 := by omega
      have e := ih fuel (k + 1) (f + 1) (i - 1) (by omega) (by omega) (by omega)
      have e1 : f + 1 + (m + 1) = f + (m + 1 + 1) := by omega
      have e2 : f + 1 + m = f + (m + 1) := by omega
      rw [e1, e2] at e
      simp only [NonRecursiveRandomizedSelect, ne_eq, hne, not_false_eq_true, if_true, hrp, bind,
        Except.bind, hconv, hi1, if_false]
      exact e

/-- The first iteration when the left part has `n` elements and the conversion of `n` to `int`
and back exceeds the rank `n`: the loop goes on in the left part with the rank `n`. -/
theorem NonRecursiveRandomizedSelect_wrapped_step [LinearOrder α] (x y : α) (hxy : x < y)
    (n fuel : Nat) (hn : 1 ≤ n) (hw : n < toSizeT (toInt n)) :
    RandomizedPartition highestSource 0 (List.replicate n x ++ [y]) 0 (n + 1) =
        .ok (List.replicate n x ++ [y], n) ∧
      NonRecursiveRandomizedSelect highestSource (fuel + 1) 0 (List.replicate n x ++ [y]) 0
          (n + 1) n =
        NonRecursiveRandomizedSelect highestSource fuel 1 (List.replicate n x ++ [y]) 0 n n := by
  have hpiv : 0 + highestSource.next 0 0 (n + 1 - 0 - 1) = n := by
    show 0 + (n + 1 - 0 - 1) = n
    omega
  have hmp := ModifiedPartition_replicate_append x y hxy n hn
  have hrp : RandomizedPartition highestSource 0 (List.replicate n x ++ [y]) 0 (n + 1) =
      .ok (List.replicate n x ++ [y], n) := by
    simp only [RandomizedPartition, hpiv, hmp, bind, Except.bind]
    rfl
  refine ⟨hrp, ?_⟩
  have hne : 0 + 1 ≠ n + 1 := by omega
  have hw1 : n < toSizeT (toInt (n - 0)) := by simpa using hw
  simp only [NonRecursiveRandomizedSelect, ne_eq, hne, not_false_eq_true, if_true, hrp, bind,
    Except.bind, hw1]

theorem RandomizedSelect_wrapped [LinearOrder α] (x y : α) (hxy : x < y) (n : Nat) (hn : 1 ≤ n)
    (hw : n < toSizeT (toInt n)) :
    RandomizedSelect highestSource (List.replicate n x ++ [y]) (n + 1) = .ok x := by
  have hlen := length_replicate_append x y n
  have hc : CheckBoundaries (List.replicate n x ++ [y]) (n + 1) = .ok () :=
    CheckBoundaries_ok (by omega) (by rw [hlen])
  obtain ⟨_, h2⟩ := NonRecursiveRandomizedSelect_wrapped_step x y hxy n n hn hw
  have h3 := NonRecursiveRandomizedSelect_equal_part x y n (n - 1) n 1 0 n (by omega) (by omega)
    (by omega)
  have e1 : 0 + (n - 1 + 1) = n := by omega
  have e2 : 0 + (n - 1) = n - 1 := by omega
  rw [e1, e2] at h3
  have hr : readAt (List.replicate n x ++ [y]) (n - 1) = .ok x :=
    readAt_of_getElem? (getElem?_replicate_append_left x y (by omega))
  simp only [RandomizedSelect, hc, hlen, Nat.add_sub_cancel, h2, h3, bind, Except.bind]
  exact hr

theorem toSizeT_toInt_two_pow_31 : toSizeT (toInt 2147483648) = 18446744071562067968 := by
  rw [toInt_of_ge (Nat.le_refl _) (by omega), toSizeT_of_neg (by omega) (by omega)]
  omega

theorem stdSort_replicate_append [LinearOrder α] (x y : α) (hxy : x < y) (n : Nat) :
    stdSort (List.replicate n x ++ [y]) = List.replicate n x ++ [y] := by
  apply List.Sorted.insertionSort_eq
  show List.Pairwise (· ≤ ·) (List.replicate n x ++ [y])
  rw [List.pairwise_append]
  refine ⟨?_, by simp, ?_⟩
  · rw [List.pairwise_replicate]
    exact Or.inr (le_refl x)
  · intro a ha b hb
    rw [List.eq_of_mem_replicate ha, List.mem_singleton.1 hb]
    exact le_of_lt hxy

/-! ## The claims -/

/-- C1 (code defect): `DeterminedSelect` does not return the element at index `i - 1` of the
sorted copy on `[2, 3, 4, 5, 6, 7, 8, 9, 10, 11, 12, 1, 1]` with rank `3`: the sorted copy holds
`2` at index `2`, which is what `NaiveSelect` returns, and `DeterminedSelect` returns `1`. -/
theorem C1_DeterminedSelect_wrong_value :
    DeterminedSelect [2, 3, 4, 5, 6, 7, 8, 9, 10, 11, 12, 1, 1] 3 = .ok 1 ∧
      (stdSort [2, 3, 4, 5, 6, 7, 8, 9, 10, 11, 12, 1, 1])[3 - 1]? = some 2 ∧
      NaiveSelect [2, 3, 4, 5, 6, 7, 8, 9, 10, 11, 12, 1, 1] 3 = .ok 2 :=
  ⟨rfl, rfl, rfl⟩

/-- C2 (code defect): on 2147483648 ones followed by a three, with the rank 2147483649 and the
pivot always at the last position of the range (a random source within its contract), the
sorted copy holds `3` at index `i - 1` and `RandomizedSelect` returns `1`: the left part of
the first partition has `2^31` elements, which `int size_left_part` cannot hold. -/
theorem C2_RandomizedSelect_wrong_beyond_int :
    highestSource.InRange ∧
      RandomizedSelect highestSource (List.replicate 2147483648 1 ++ [3]) 2147483649 = .ok 1 ∧
      (stdSort (List.replicate 2147483648 1 ++ [3]))[2147483649 - 1]? = some 3 := by
  refine ⟨highestSource_inRange, ?_, ?_⟩
  · exact RandomizedSelect_wrapped 1 3 (by decide) 2147483648 (by decide)
      (by rw [toSizeT_toInt_two_pow_31]; decide)
  · rw [stdSort_replicate_append 1 3 (by decide) 2147483648]
    exact getElem?_replicate_append_last 1 3 2147483648

/-- C3 (code defect): on a collection of 2147483649 zeros the rank 2147483649 is valid, yet
`NaiveSelect` does not return a value: the access `at` is out of range. -/
theorem C3_NaiveSelect_throws_beyond_int :
    List.replicate 2147483649 0 ≠ [] ∧ 1 ≤ 2147483649 ∧
      2147483649 ≤ (List.replicate 2147483649 0).length ∧
      NaiveSelect (List.replicate 2147483649 0) 2147483649 = .error .outOfRange := by
  have hlen : (List.replicate 2147483649 0).length = 2147483649 := List.length_replicate _ _
  refine ⟨?_, by decide, by rw [hlen], ?_⟩
  · intro h
    rw [h] at hlen
    exact absurd hlen (by decide)
  · exact NaiveSelect_of_rank_beyond_int _ 2147483649 (by decide) (by decide) (by rw [hlen])
      (by rw [hlen]; decide)

/-- C4 as stated fails: on the range `[4, 4]` with the pivot at its first position the returned
boundary is one past the start and the element before it is `4`, which is not strictly less
than the pivot value `4`. -/
theorem C4_counterexample :
    ModifiedPartition (⟨[4, 4], []⟩ : Memory Nat) 0 2 (.main 0) = .ok (⟨[4, 4], []⟩, 1) ∧
      segment [4, 4] 0 1 = [4] ∧ ¬ (∀ x ∈ segment [4, 4] 0 1, x < 4) :=
  ⟨rfl, rfl, by decide⟩

/-- C4 (amended): for every non-empty range `[f, l)` and pivot position `pv` inside it holding
the value `pe`, `ModifiedPartition` returns a boundary `r` with `r ≠ f` and `f < r ≤ l`; every
element at or after `r` is `≥ pe`; when some element of the range is strictly less than `pe`,
every element before `r` is strictly less than `pe`; otherwise `r = f + 1` and the one element
before `r` is the pivot value itself. -/
theorem C4_ModifiedPartition_boundary [LinearOrder α] (a aux : List α) (f l pv : Nat) (pe : α)
    (hfl : f < l) (hl : l ≤ a.length) (hpv : f ≤ pv) (hpvl : pv < l) (hpe : a[pv]? = some pe) :
    ∃ b r, ModifiedPartition ⟨a, aux⟩ f l (.main pv) = .ok (⟨b, aux⟩, r) ∧ r ≠ f ∧ f < r ∧
      r ≤ l ∧ (∀ x ∈ segment b r l, pe ≤ x) ∧
      ((∃ x ∈ segment a f l, x < pe) → ∀ x ∈ segment b f r, x < pe) ∧
      ((∀ x ∈ segment a f l, pe ≤ x) → r = f + 1 ∧ segment b f r = [pe]) := by
  obtain ⟨b, r, h1, _, h3, h4, h5, _, h7, h8⟩ := ModifiedPartition_main a aux hfl hl hpv hpvl hpe
  refine ⟨b, r, h1, by omega, h4, h5, h7, ?_, ?_⟩
  · rintro ⟨x, hx, hxp⟩
    rcases h8 with ⟨_, h9⟩ | ⟨h9, _, _⟩
    · exact h9
    · exact absurd hxp (not_lt_of_le (h9 x hx))
  · intro hall
    rcases h8 with ⟨⟨x, hx, hxp⟩, _⟩ | ⟨_, h9, h10⟩
    · exact absurd hxp (not_lt_of_le (hall x hx))
    · refine ⟨h9, ?_⟩
      subst h9
      apply List.ext_getElem?
      intro n
      rw [getElem?_segment]
      cases n with
      | zero => rw [if_pos (by omega)]; simpa using h10
      | succ n => rw [if_neg (by omega)]; simp

/-- Instance of the amended C4: the range `[5, 3, 8, 1]` with the pivot `3` at position `1`. -/
theorem C4_ModifiedPartition_boundary_witness :
    0 < 4 ∧ 4 ≤ [5, 3, 8, 1].length ∧ 0 ≤ 1 ∧ 1 < 4 ∧ [5, 3, 8, 1][1]? = some 3 ∧
      ∃ b r, ModifiedPartition ⟨[5, 3, 8, 1], []⟩ 0 4 (.main 1) = .ok (⟨b, []⟩, r) ∧ r ≠ 0 ∧
        0 < r ∧ r ≤ 4 ∧ (∀ x ∈ segment b r 4, 3 ≤ x) ∧
        ((∃ x ∈ segment [5, 3, 8, 1] 0 4, x < 3) → ∀ x ∈ segment b 0 r, x < 3) ∧
        ((∀ x ∈ segment [5, 3, 8, 1] 0 4, 3 ≤ x) → r = 0 + 1 ∧ segment b 0 r = [3]) :=
  ⟨by decide, by decide, by decide, by decide, rfl,
    C4_ModifiedPartition_boundary [5, 3, 8, 1] [] 0 4 1 3 (by decide) (by decide) (by decide)
      (by decide) rfl⟩

/-- C5 (code defect): on 2147483648 ones followed by a three, the element at position
`2147483649 - 1` of the sorted copy is `3`, and `NaiveSelect` with the rank 2147483649 fails
with an access out of range instead of returning it. -/
theorem C5_NaiveSelect_no_order_statistic_beyond_int :
    (stdSort (List.replicate 2147483648 1 ++ [3]))[2147483649 - 1]? = some 3 ∧
      NaiveSelect (List.replicate 2147483648 1 ++ [3]) 2147483649 = .error .outOfRange := by
  have hlen : (List.replicate 2147483648 1 ++ [3]).length = 2147483648 + 1 :=
    length_replicate_append 1 3 2147483648
  refine ⟨?_, ?_⟩
  · rw [stdSort_replicate_append 1 3 (by decide) 2147483648]
    exact getElem?_replicate_append_last 1 3 2147483648
  · exact NaiveSelect_of_rank_beyond_int _ 2147483649 (by decide) (by decide) (by rw [hlen])
      (by rw [hlen]; decide)

/-- C6 (code defect): on a collection of 2147483649 elements all equal to `4`, with the valid
rank 2147483649, `NaiveSelect` does not return `4` but fails with an access out of range. -/
theorem C6_NaiveSelect_all_equal_beyond_int :
    (∀ x ∈ List.replicate 2147483649 4, x = 4) ∧
      2147483649 ≤ (List.replicate 2147483649 4).length ∧
      NaiveSelect (List.replicate 2147483649 4) 2147483649 = .error .outOfRange := by
  have hlen : (List.replicate 2147483649 4).length = 2147483649 := List.length_replicate _ _
  refine ⟨fun x hx => List.eq_of_mem_replicate hx, by rw [hlen], ?_⟩
  exact NaiveSelect_of_rank_beyond_int _ 2147483649 (by decide) (by decide) (by rw [hlen])
    (by rw [hlen]; decide)

/-- C7: on the concrete scenarios every strategy returns the stated value, `RandomizedSelect`
for every random source answering within `[low, high]`: for `[5, 3, 8, 1, 9, 2]` rank `1` gives
`1`, rank `3` gives `3`, rank `6` gives `9`; for `[7]` rank `1` gives `7`. -/
theorem C7_concrete_scenarios (rnd : RandomSource) (hr : rnd.InRange) :
    (NaiveSelect [5, 3, 8, 1, 9, 2] 1 = .ok 1 ∧ RandomizedSelect rnd [5, 3, 8, 1, 9, 2] 1 = .ok 1 ∧
      DeterminedSelect [5, 3, 8, 1, 9, 2] 1 = .ok 1) ∧
    (NaiveSelect [5, 3, 8, 1, 9, 2] 3 = .ok 3 ∧ RandomizedSelect rnd [5, 3, 8, 1, 9, 2] 3 = .ok 3 ∧
      DeterminedSelect [5, 3, 8, 1, 9, 2] 3 = .ok 3) ∧
    (NaiveSelect [5, 3, 8, 1, 9, 2] 6 = .ok 9 ∧ RandomizedSelect rnd [5, 3, 8, 1, 9, 2] 6 = .ok 9 ∧
      DeterminedSelect [5, 3, 8, 1, 9, 2] 6 = .ok 9) ∧
    (NaiveSelect [7] 1 = .ok 7 ∧ RandomizedSelect rnd [7] 1 = .ok 7 ∧
      DeterminedSelect [7] 1 = .ok 7) := by
  have key : ∀ (C : List Nat) (i v : Nat), 1 ≤ i → i ≤ C.length → C.length ≤ 6 →
      (stdSort C)[i - 1]? = some v → RandomizedSelect rnd C i = .ok v := by
    intro C i v h1 h2 h3 hv
    obtain ⟨w, hw, hs⟩ := RandomizedSelect_eq rnd hr C i h1 h2 (by omega)
    rw [hv] at hw
    rw [hs, ← Option.some.inj hw]
  exact ⟨⟨rfl, key _ 1 1 (by decide) (by decide) (by decide) rfl, rfl⟩,
    ⟨rfl, key _ 3 3 (by decide) (by decide) (by decide) rfl, rfl⟩,
    ⟨rfl, key _ 6 9 (by decide) (by decide) (by decide) rfl, rfl⟩,
    ⟨rfl, key _ 1 7 (by decide) (by decide) (by decide) rfl, rfl⟩⟩

/-- Instance of C7 with the pivot always at the first position. -/
theorem C7_concrete_scenarios_witness :
    lowestSource.InRange ∧
    ((NaiveSelect [5, 3, 8, 1, 9, 2] 1 = .ok 1 ∧
        RandomizedSelect lowestSource [5, 3, 8, 1, 9, 2] 1 = .ok 1 ∧
        DeterminedSelect [5, 3, 8, 1, 9, 2] 1 = .ok 1) ∧
      (NaiveSelect [5, 3, 8, 1, 9, 2] 3 = .ok 3 ∧
        RandomizedSelect lowestSource [5, 3, 8, 1, 9, 2] 3 = .ok 3 ∧
        DeterminedSelect [5, 3, 8, 1, 9, 2] 3 = .ok 3) ∧
      (NaiveSelect [5, 3, 8, 1, 9, 2] 6 = .ok 9 ∧
        RandomizedSelect lowestSource [5, 3, 8, 1, 9, 2] 6 = .ok 9 ∧
        DeterminedSelect [5, 3, 8, 1, 9, 2] 6 = .ok 9) ∧
      (NaiveSelect [7] 1 = .ok 7 ∧ RandomizedSelect lowestSource [7] 1 = .ok 7 ∧
        DeterminedSelect [7] 1 = .ok 7)) :=
  ⟨lowestSource_inRange, C7_concrete_scenarios lowestSource lowestSource_inRange⟩

/-- C9 (code defect): on the range `[2, 3, 4, 5, 6, 7, 8, 9, 10, 11, 12, 1, 1]` the partition
step of `Select` is called with the position of the median of medians inside the vector
`medians`, whose value `1` is the minimum of the range; the exchange of the degenerate case
then overwrites the first element `2` of the range with `1`, so the range after the step, and
after `Select` returns, is not a permutation of the range before. -/
theorem C9_Select_changes_multiset :
    collectMedians [2, 3, 4, 5, 6, 7, 8, 9, 10, 11, 12, 1, 1] (SplitArray 0 13) [] =
        .ok ([2, 3, 4, 5, 6, 7, 8, 9, 10, 11, 12, 1, 1], [7, 1]) ∧
      Select 12 [7, 1] 0 2 ((2 - 1) / 2) = .ok ([1, 7], 0) ∧
      ModifiedPartition ⟨[2, 3, 4, 5, 6, 7, 8, 9, 10, 11, 12, 1, 1], [1, 7]⟩ 0 13 (.aux 0) =
        .ok (⟨[1, 3, 4, 5, 6, 7, 8, 9, 10, 11, 12, 1, 1], [2, 7]⟩, 1) ∧
      ¬ (segment [1, 3, 4, 5, 6, 7, 8, 9, 10, 11, 12, 1, 1] 0 13).Perm
          (segment [2, 3, 4, 5, 6, 7, 8, 9, 10, 11, 12, 1, 1] 0 13) ∧
      Select 13 [2, 3, 4, 5, 6, 7, 8, 9, 10, 11, 12, 1, 1] 0 13 2 =
        .ok ([1, 1, 1, 3, 4, 5, 6, 8, 9, 10, 11, 12, 7], 2) ∧
      ¬ (segment [1, 1, 1, 3, 4, 5, 6, 8, 9, 10, 11, 12, 7] 0 13).Perm
          (segment [2, 3, 4, 5, 6, 7, 8, 9, 10, 11, 12, 1, 1] 0 13) :=
  ⟨rfl, rfl, rfl, by decide, rfl, by decide⟩

/-- C10: for every non-empty range `[f, l)` of a buffer and every pivot position inside it,
`ModifiedPartition` succeeds and the range afterwards is a permutation of the range before,
of the same length; positions outside the range and the other container keep their contents.
The case in which no element is strictly less than the pivot is included. -/
theorem C10_ModifiedPartition_perm [LinearOrder α] (a aux : List α) (f l pv : Nat)
    (hfl : f < l) (hl : l ≤ a.length) (hpv : f ≤ pv) (hpvl : pv < l) :
    ∃ b r, ModifiedPartition ⟨a, aux⟩ f l (.main pv) = .ok (⟨b, aux⟩, r) ∧
      (segment b f l).Perm (segment a f l) ∧
      (segment b f l).length = (segment a f l).length ∧ SameOutside a b f l := by
  obtain ⟨pe, hpe⟩ := exists_getElem?_of_lt (show pv < a.length by omega)
  obtain ⟨b, r, h1, h2, h3, _⟩ := ModifiedPartition_main a aux hfl hl hpv hpvl hpe
  have hp := h3.segment_perm (Nat.le_of_lt hfl) h2
  exact ⟨b, r, h1, hp, hp.length_eq, h3⟩

/-- Instance of C10: the range `[4, 6, 5]` with the pivot at its first position, where no element
is strictly less than the pivot. -/
theorem C10_ModifiedPartition_perm_witness :
    0 < 3 ∧ 3 ≤ [4, 6, 5].length ∧ 0 ≤ 0 ∧ 0 < 3 ∧
      ∃ b r, ModifiedPartition ⟨[4, 6, 5], []⟩ 0 3 (.main 0) = .ok (⟨b, []⟩, r) ∧
        (segment b 0 3).Perm (segment [4, 6, 5] 0 3) ∧
        (segment b 0 3).length = (segment [4, 6, 5] 0 3).length ∧ SameOutside [4, 6, 5] b 0 3 :=
  ⟨by decide, by decide, by decide, by decide,
    C10_ModifiedPartition_perm [4, 6, 5] [] 0 3 0 (by decide) (by decide) (by decide)
      (by decide)⟩

/-! ## `InsertionSort`: order of the result -/

theorem InsertionSort.inner_sorted [LinearOrder α] (first i : Nat) :
    ∀ (j : Nat) (a : List α), j ≤ i → i < a.length →
      (∀ p q x y, first ≤ p → p < q → q ≤ i → p ≠ j → q ≠ j → a[p]? = some x →
        a[q]? = some y → x ≤ y) →
      (∀ q x y, j < q → q ≤ i → a[j]? = some x → a[q]? = some y → x ≤ y) →
      ∃ b, InsertionSort.inner first j a = .ok b ∧ RangeSorted b first (i + 1) := by
  intro j
  induction j with
  | zero =>
    intro a _ _ h1 h2
    refine ⟨a, rfl, ?_⟩
    intro p q x y hp hpq hq hx hy
    by_cases hp0 : p = 0
    · subst hp0; exact h2 q x y hpq (by omega) hx hy
    · exact h1 p q x y hp hpq (by omega) hp0 (by omega) hx hy
  | succ j ih =>
    intro a hj hi h1 h2
    by_cases hf : j + 1 > first
    · obtain ⟨x, hx⟩ := exists_getElem?_of_lt (show j < a.length by omega)
      obtain ⟨y, hy⟩ := exists_getElem?_of_lt (show j + 1 < a.length by omega)
      by_cases hxy : x > y
      · have hjl : j < a.length := by omega
        have hjl1 : j + 1 < a.length := by omega
        have hget : ∀ k, ((a.set j y).set (j + 1) x)[k]? =
            if j + 1 = k then some x else if j = k then some y else a[k]? :=
          getElem?_set_set hjl hjl1
        obtain ⟨b, g1, g2⟩ := ih ((a.set j y).set (j + 1) x) (by omega) (by simp; omega)
          (by
            intro p q u v hp hpq hq hpj hqj hu hv
            rw [hget, if_neg (Ne.symm hpj)] at hu
            rw [hget, if_neg (Ne.symm hqj)] at hv
            by_cases hp1 : j + 1 = p
            · rw [if_pos hp1] at hu
              rw [if_neg (by omega)] at hv
              have : x = u := Option.some.inj hu
              subst this
              exact h1 j q x v (by omega) (by omega) hq (by omega) (by omega) hx hv
            · rw [if_neg hp1] at hu
              by_cases hq1 : j + 1 = q
              · rw [if_pos hq1] at hv
                have : x = v := Option.some.inj hv
                subst this
                exact h1 p j u x hp (by omega) (by omega) (by omega) (by omega) hu hx
              · rw [if_neg hq1] at hv
                exact h1 p q u v hp hpq hq (by omega) (by omega) hu hv)
          (by
            intro q u v hjq hq hu hv
            rw [hget, if_neg (by omega), if_pos rfl] at hu
            have : y = u := Option.some.inj hu
            subst this
            rw [hget] at hv
            by_cases hq1 : j + 1 = q
            · rw [if_pos hq1] at hv
              have : x = v := Option.some.inj hv
              subst this
              exact le_of_lt hxy
            · rw [if_neg hq1, if_neg (by omega)] at hv
              exact h2 q y v (by omega) hq hy hv)
        refine ⟨b, ?_, g2⟩
        simp only [InsertionSort.inner, hf, if_true, readAt_of_getElem? hx,
          readAt_of_getElem? hy, bind, Except.bind, hxy, swapAt_ok hx hy]
        exact g1
      · refine ⟨a, ?_, ?_⟩
        · simp only [InsertionSort.inner, hf, if_true, readAt_of_getElem? hx,
            readAt_of_getElem? hy, bind, Except.bind, hxy, if_false]
          rfl
        · intro p q u v hp hpq hq hu hv
          by_cases hp1 : p = j + 1
          · subst hp1; exact h2 q u v hpq (by omega) hu hv
          · by_cases hq1 : q = j + 1
            · subst hq1
              have hv' : y = v := by rw [hy] at hv; exact Option.some.inj hv
              subst hv'
              have hxy' : x ≤ y := le_of_not_lt hxy
              by_cases hpj : p = j
              · subst hpj
                have : x = u := by rw [hx] at hu; exact Option.some.inj hu
                subst this
                exact hxy'
              · exact le_trans
                  (h1 p j u x hp (by omega) (by omega) (by omega) (by omega) hu hx) hxy'
            · exact h1 p q u v hp hpq (by omega) hp1 hq1 hu hv
    · refine ⟨a, ?_, ?_⟩
      · simp only [InsertionSort.inner, hf, if_false]
        rfl
      · intro p q u v hp hpq hq hu hv
        by_cases hp1 : p = j + 1
        · subst hp1; exact h2 q u v hpq (by omega) hu hv
        · exact h1 p q u v hp hpq (by omega) hp1 (by omega) hu hv

theorem InsertionSort.outer_sorted [LinearOrder α] (first : Nat) :
    ∀ (steps i : Nat) (a : List α), i + steps ≤ a.length → RangeSorted a first i →
      ∃ b, InsertionSort.outer first steps i a = .ok b ∧ RangeSorted b first (i + steps) := by
  intro steps
  induction steps with
  | zero => intro i a _ h; exact ⟨a, rfl, h⟩
  | succ steps ih =>
    intro i a hlen h
    obtain ⟨b, g1, g2⟩ := InsertionSort.inner_sorted first i i a (Nat.le_refl _) (by omega)
      (fun p q x y hp hpq hq _ hqi hx hy => h p q x y hp hpq (by omega) hx hy)
      (fun q x y h1 h2 _ _ => by omega)
    obtain ⟨b', e1, _, e3⟩ := InsertionSort.inner_ok first i a (by omega)
    have hb : b' = b := by rw [e1] at g1; exact Except.ok.inj g1
    subst hb
    obtain ⟨c, k1, k2⟩ := ih (i + 1) b' (by rw [e3.1]; omega) g2
    refine ⟨c, ?_, ?_⟩
    · simp only [InsertionSort.outer, e1, bind, Except.bind]
      exact k1
    · have e : i + (steps + 1) = i + 1 + steps := by omega
      rw [e]; exact k2

theorem InsertionSort_sorted [LinearOrder α] (a : List α) (f l : Nat) (hl : l ≤ a.length) :
    ∃ b, InsertionSort a f l = .ok b ∧ RangeSorted b f l := by
  by_cases hfl : f < l
  · obtain ⟨b, g1, g2⟩ :=
      InsertionSort.outer_sorted f (l - (f + 1)) (f + 1) a (by omega)
        (fun p q x y hp hpq hq _ _ => by omega)
    have e : f + 1 + (l - (f + 1)) = l := by omega
    rw [e] at g2
    exact ⟨b, g1, g2⟩
  · have e : l - (f + 1) = 0 := by omega
    refine ⟨a, ?_, fun p q x y hp hpq hq _ _ => by omega⟩
    simp only [InsertionSort, e, InsertionSort.outer]
    rfl

theorem RangeSorted.segment_sorted [LinearOrder α] {a : List α} {f l : Nat}
    (h : RangeSorted a f l) : (segment a f l).Sorted (· ≤ ·) := by
  show List.Pairwise (· ≤ ·) (segment a f l)
  rw [List.pairwise_iff_getElem]
  intro i j hi hj hij
  have h1 : (segment a f l)[i]? = some (segment a f l)[i] := List.getElem?_eq_getElem hi
  have h2 : (segment a f l)[j]? = some (segment a f l)[j] := List.getElem?_eq_getElem hj
  rw [getElem?_segment] at h1 h2
  by_cases hjl : j < l - f
  · rw [if_pos hjl] at h2
    rw [if_pos (by omega)] at h1
    exact h (f + i) (f + j) _ _ (by omega) (by omega) (by omega) h1 h2
  · rw [if_neg hjl] at h2; cases h2

theorem InsertionSort_spec [LinearOrder α] (a : List α) (f l : Nat) (hfl : f ≤ l)
    (hl : l ≤ a.length) :
    ∃ b, InsertionSort a f l = .ok b ∧ (segment b f l).Sorted (· ≤ ·) ∧
      (segment b f l).Perm (segment a f l) ∧ SameOutside a b f l ∧
      segment b f l = stdSort (segment a f l) := by
  obtain ⟨b, g1, g2⟩ := InsertionSort_sorted a f l hl
  obtain ⟨b', e1, e2, e3⟩ := InsertionSort_ok a f l hl
  have hb : b' = b := by rw [e1] at g1; exact Except.ok.inj g1
  subst hb
  have hp := e3.segment_perm hfl e2
  refine ⟨b', e1, g2.segment_sorted, hp, e3, ?_⟩
  exact List.eq_of_perm_of_sorted (hp.trans (stdSort_perm _).symm) g2.segment_sorted
    (stdSort_sorted _)

/-! ## One level of `Select` and one iteration of the randomized loop -/

theorem Select_step [LinearOrder α] (fuel : Nat) (a : List α) (f l i : Nat) (hfl : f < l)
    (hne : f + 1 ≠ l) (hl : l ≤ a.length) (hfuel : l - f ≤ fuel + 1) :
    ∃ a1 ms ms1 k m r, collectMedians a (SplitArray f l) [] = .ok (a1, ms) ∧
      0 < ms.length ∧ ms.length < l - f ∧
      Select fuel ms 0 ms.length ((ms.length - 1) / 2) = .ok (ms1, k) ∧ k < ms.length ∧
      ModifiedPartition ⟨a1, ms1⟩ f l (.aux k) = .ok (m, r) ∧ f < r ∧ r < l ∧
      m.main.length = a.length ∧
      Select (fuel + 1) a f l i =
        if i < r - f then Select fuel m.main f r i else Select fuel m.main r l (i - (r - f)) := by
  obtain ⟨a1, ms, c1, c2, c3, c4, c5⟩ :=
    collectMedians_ok f l (SplitArray f l) a [] (fun g hg => SplitArray_group_bounds hg) hl
  rw [List.nil_append] at c1
  rw [SplitArray_length] at c2
  have hm1 : 0 < ms.length := by omega
  have hm2 : ms.length < l - f := by omega
  obtain ⟨ms1, k, s1, s2, s3, s4, s5⟩ :=
    Select_spec fuel ms 0 ms.length ((ms.length - 1) / 2) hm1 (Nat.le_refl _) (by omega)
      (by omega)
  obtain ⟨pe, hpe⟩ := exists_getElem?_of_lt (show k < ms1.length by rw [s2.1]; exact s4)
  have hl1 : l ≤ a1.length := by rw [c4.1]; exact hl
  have hpe1 : pe ∈ segment a1 f l := by
    rw [mem_segment_of_frame_perm c4 c3 (Nat.le_of_lt hfl)]
    apply c5
    have : pe ∈ segment ms 0 ms.length := s5 pe (mem_segment.2 ⟨k, Nat.zero_le _, s4, hpe⟩)
    rw [segment_whole] at this
    exact this
  obtain ⟨b, aux1, r, m1, m2, m3, m4, m5, m6⟩ := ModifiedPartition_aux a1 ms1 hfl hl1 hpe hpe1
  have hrl : r < l := m5 (by omega)
  refine ⟨a1, ms, ms1, k, ⟨b, aux1⟩, r, c1, hm1, hm2, s1, s4, m1, m3, hrl, ?_, ?_⟩
  · show b.length = a.length
    rw [m2.1, c4.1]
  · by_cases h2 : i < r - f
    · simp only [Select, hne, if_false, c1, s1, m1, bind, Except.bind, h2, if_true]
    · simp only [Select, hne, if_false, c1, s1, m1, bind, Except.bind, h2]

theorem NonRecursiveRandomizedSelect_step [LinearOrder α] (rnd : RandomSource)
    (hr : rnd.InRange) (fuel k : Nat) (a : List α) (f l i : Nat) (hn : f + 2 ≤ l)
    (hl : l ≤ a.length) (hb : l - f ≤ 2147483648) :
    ∃ b r, RandomizedPartition rnd k a f l = .ok (b, r) ∧ f < r ∧ r < l ∧
      b.length = a.length ∧
      NonRecursiveRandomizedSelect rnd (fuel + 1) k a f l i =
        if i < r - f then NonRecursiveRandomizedSelect rnd fuel (k + 1) b f r i
        else NonRecursiveRandomizedSelect rnd fuel (k + 1) b r l (i - (r - f)) := by
  obtain ⟨b, r, pe, e1, e2, e3, e4, e5, e6, e7, e8⟩ :=
    RandomizedPartition_ok rnd hr k a (show f < l by omega) hl
  have hne : f + 1 ≠ l := by omega
  have hrl : r < l := e6 (by omega)
  have hconv : toSizeT (toInt (r - f)) = r - f := toSizeT_toInt_of_lt (by omega)
  refine ⟨b, r, e1, e4, hrl, e3.1, ?_⟩
  by_cases h2 : i < r - f
  · simp only [NonRecursiveRandomizedSelect, ne_eq, hne, not_false_eq_true, if_true, e1,
      bind, Except.bind, hconv, h2]
  · simp only [NonRecursiveRandomizedSelect, ne_eq, hne, not_false_eq_true, if_true, e1,
      bind, Except.bind, hconv, h2, if_false]

/-- C11: for every non-empty range `[f, l)` and pivot position `pv` inside it holding `pe`, when
no element of the range is strictly less than `pe`, `ModifiedPartition` returns the position
`f + 1`, the element at position `f` afterwards is `pe`, and every element from `f + 1` on is
greater than or equal to `pe`. -/
theorem C11_ModifiedPartition_pivot_is_minimum [LinearOrder α] (a aux : List α)
    (f l pv : Nat) (pe : α) (hfl : f < l) (hl : l ≤ a.length) (hpv : f ≤ pv) (hpvl : pv < l)
    (hpe : a[pv]? = some pe) (hmin : ∀ x ∈ segment a f l, ¬ x < pe) :
    ∃ b, ModifiedPartition ⟨a, aux⟩ f l (.main pv) = .ok (⟨b, aux⟩, f + 1) ∧
      b[f]? = some pe ∧ ∀ x ∈ segment b (f + 1) l, pe ≤ x := by
  obtain ⟨b, r, h1, _, _, _, _, _, h7, h8⟩ := ModifiedPartition_main a aux hfl hl hpv hpvl hpe
  rcases h8 with ⟨⟨x, hx, hxp⟩, _⟩ | ⟨_, h9, h10⟩
  · exact absurd hxp (hmin x hx)
  · subst h9
    exact ⟨b, h1, h10, h7⟩

/-- Instance of C11: the range `[4, 6, 5, 4]` with the pivot `4` at its last position. -/
theorem C11_ModifiedPartition_pivot_is_minimum_witness :
    0 < 4 ∧ 4 ≤ [4, 6, 5, 4].length ∧ 0 ≤ 3 ∧ 3 < 4 ∧ [4, 6, 5, 4][3]? = some 4 ∧
      (∀ x ∈ segment [4, 6, 5, 4] 0 4, ¬ x < 4) ∧
      ∃ b, ModifiedPartition ⟨[4, 6, 5, 4], []⟩ 0 4 (.main 3) = .ok (⟨b, []⟩, 0 + 1) ∧
        b[0]? = some 4 ∧ ∀ x ∈ segment b (0 + 1) 4, 4 ≤ x :=
  ⟨by decide, by decide, by decide, by decide, rfl, by decide,
    C11_ModifiedPartition_pivot_is_minimum [4, 6, 5, 4] [] 0 4 3 4 (by decide) (by decide)
      (by decide) (by decide) rfl (by decide)⟩

/-- C12 (code defect): on the range of 2147483648 ones followed by a three, with the rank
2147483648 and the pivot at the last position, the partition boundary is `r = 2147483648`; the
rank is not below `r - first`, so the loop should go on in `[r, last)`, but `int size_left_part`
holds `-2^31`, its conversion in `i < size_left_part` is `2^64 - 2^31`, and the loop goes on in
`[first, r)` with the rank 2147483648, which is not smaller than the length of that range. -/
theorem C12_randomized_loop_goes_left_beyond_int :
    highestSource.InRange ∧
      RandomizedPartition highestSource 0 (List.replicate 2147483648 1 ++ [3]) 0 2147483649 =
        .ok (List.replicate 2147483648 1 ++ [3], 2147483648) ∧
      toInt (2147483648 - 0) = -2147483648 ∧
      toSizeT (toInt (2147483648 - 0)) = 18446744071562067968 ∧
      NonRecursiveRandomizedSelect highestSource 2147483649 0
          (List.replicate 2147483648 1 ++ [3]) 0 2147483649 2147483648 =
        NonRecursiveRandomizedSelect highestSource 2147483648 1
          (List.replicate 2147483648 1 ++ [3]) 0 2147483648 2147483648 ∧
      ¬ (2147483648 < 2147483648 - 0) := by
  obtain ⟨h1, h2⟩ := NonRecursiveRandomizedSelect_wrapped_step 1 3 (by decide) 2147483648
    2147483648 (by decide) (by rw [toSizeT_toInt_two_pow_31]; decide)
  refine ⟨highestSource_inRange, h1, ?_, toSizeT_toInt_two_pow_31, h2, by decide⟩
  rw [toInt_of_ge (by decide) (by decide)]
  decide

/-- C13 (code defect): on a range of length `12` `SplitArray` returns the single group
`[0, 11)`: the element at position `11` lies in no group and there is one group, not
`ceil(12 / 11) = 2`. -/
theorem C13_SplitArray_misses_last_element :
    SplitArray 0 12 = [(0, 11)] ∧ (SplitArray 0 12).length = 1 ∧ (12 + 10) / 11 = 2 ∧
      ¬ ∃ g ∈ SplitArray 0 12, g.1 ≤ 11 ∧ 11 < g.2 := by
  decide

/-- C14: for every non-empty range `[f, l)` of length `n`, every rank `i < n` and a recursion
budget of at least `n`, `Select` returns a position inside `[f, l)`; when `n ≥ 2` its recursive
calls are: one on the whole vector of medians, which is non-empty and shorter than `n`, with a
rank smaller than its length; then one on `[f, r)` with the rank `i` when `i < r - f`, or on
`[r, l)` with the rank `i - (r - f)` otherwise, where the boundary satisfies `f < r < l`:
a non-empty, strictly shorter range and a rank smaller than its length. -/
theorem C14_Select_terminates [LinearOrder α] (fuel : Nat) (a : List α) (f l i : Nat)
    (hfl : f < l) (hl : l ≤ a.length) (hi : i < l - f) (hfuel : l - f ≤ fuel + 1) :
    (∃ b pos, Select (fuel + 1) a f l i = .ok (b, pos) ∧ f ≤ pos ∧ pos < l ∧
      pos + 1 ≤ b.length) ∧
    (f + 1 ≠ l → ∃ a1 ms ms1 k m r,
      collectMedians a (SplitArray f l) [] = .ok (a1, ms) ∧
      (0 < ms.length ∧ ms.length < l - f ∧ (ms.length - 1) / 2 < ms.length) ∧
      Select fuel ms 0 ms.length ((ms.length - 1) / 2) = .ok (ms1, k) ∧
      ModifiedPartition ⟨a1, ms1⟩ f l (.aux k) = .ok (m, r) ∧ f < r ∧ r < l ∧
      (i < r - f → 0 < r - f ∧ r - f < l - f ∧
        Select (fuel + 1) a f l i = Select fuel m.main f r i) ∧
      (¬ i < r - f → 0 < l - r ∧ l - r < l - f ∧ i - (r - f) < l - r ∧
        Select (fuel + 1) a f l i = Select fuel m.main r l (i - (r - f)))) := by
  obtain ⟨b, pos, g1, g2, g3, g4, _⟩ := Select_spec (fuel + 1) a f l i hfl hl hi hfuel
  refine ⟨⟨b, pos, g1, g3, g4, by rw [g2.1]; omega⟩, fun hne => ?_⟩
  obtain ⟨a1, ms, ms1, k, m, r, c1, c2, c3, c4, _, c6, c7, c8, _, c10⟩ :=
    Select_step fuel a f l i hfl hne hl hfuel
  refine ⟨a1, ms, ms1, k, m, r, c1, ⟨c2, c3, by omega⟩, c4, c6, c7, c8,
    fun h => ⟨by omega, by omega, ?_⟩, fun h => ⟨by omega, by omega, by omega, ?_⟩⟩
  · rw [c10, if_pos h]
  · rw [c10, if_neg h]

/-- Instance of C14: the range `[5, 3, 8, 1, 9, 2]`, rank `2`, budget `6`. -/
theorem C14_Select_terminates_witness :
    0 < 6 ∧ 6 ≤ [5, 3, 8, 1, 9, 2].length ∧ 2 < 6 - 0 ∧ 6 - 0 ≤ 5 + 1 ∧
    ((∃ b pos, Select (5 + 1) [5, 3, 8, 1, 9, 2] 0 6 2 = .ok (b, pos) ∧ 0 ≤ pos ∧ pos < 6 ∧
        pos + 1 ≤ b.length) ∧
      (0 + 1 ≠ 6 → ∃ a1 ms ms1 k m r,
        collectMedians [5, 3, 8, 1, 9, 2] (SplitArray 0 6) [] = .ok (a1, ms) ∧
        (0 < ms.length ∧ ms.length < 6 - 0 ∧ (ms.length - 1) / 2 < ms.length) ∧
        Select 5 ms 0 ms.length ((ms.length - 1) / 2) = .ok (ms1, k) ∧
        ModifiedPartition ⟨a1, ms1⟩ 0 6 (.aux k) = .ok (m, r) ∧ 0 < r ∧ r < 6 ∧
        (2 < r - 0 → 0 < r - 0 ∧ r - 0 < 6 - 0 ∧
          Select (5 + 1) [5, 3, 8, 1, 9, 2] 0 6 2 = Select 5 m.main 0 r 2) ∧
        (¬ 2 < r - 0 → 0 < 6 - r ∧ 6 - r < 6 - 0 ∧ 2 - (r - 0) < 6 - r ∧
          Select (5 + 1) [5, 3, 8, 1, 9, 2] 0 6 2 = Select 5 m.main r 6 (2 - (r - 0))))) :=
  ⟨by decide, by decide, by decide, by decide,
    C14_Select_terminates 5 [5, 3, 8, 1, 9, 2] 0 6 2 (by decide) (by decide) (by decide)
      (by decide)⟩

/-- C15: for every non-empty collection and every valid rank, `DeterminedSelect` returns a value,
and that value is an element of the collection. -/
theorem C15_DeterminedSelect_member [LinearOrder α] (C : List α) (i : Nat) (h1 : 1 ≤ i)
    (h2 : i ≤ C.length) : ∃ v, DeterminedSelect C i = .ok v ∧ v ∈ C := by
  obtain ⟨v, hv, hd⟩ := DeterminedSelect_ok C i h1 h2
  exact ⟨v, hd, hv⟩

/-- Instance of C15: the collection of C1, where the returned value is not the order statistic
but still occurs in the collection. -/
theorem C15_DeterminedSelect_member_witness :
    1 ≤ 3 ∧ 3 ≤ [2, 3, 4, 5, 6, 7, 8, 9, 10, 11, 12, 1, 1].length ∧
      ∃ v, DeterminedSelect [2, 3, 4, 5, 6, 7, 8, 9, 10, 11, 12, 1, 1] 3 = .ok v ∧
        v ∈ [2, 3, 4, 5, 6, 7, 8, 9, 10, 11, 12, 1, 1] :=
  ⟨by decide, by decide,
    C15_DeterminedSelect_member [2, 3, 4, 5, 6, 7, 8, 9, 10, 11, 12, 1, 1] 3 (by decide)
      (by decide)⟩

set_option maxRecDepth 1000000 in
/-- C16 (code defect): on the range made of 121 nines, 55 ones and 55 fives (231 elements, 21
groups) the group medians are eleven nines, five ones and five fives, whose median (index `10`
of their sorted sequence) is `9`; the nested `Select` over the medians returns a position that
holds `5`, which `ModifiedPartition` then reads as the pivot value. -/
theorem C16_pivot_is_not_median_of_medians :
    collectMedians (List.replicate 121 9 ++ List.replicate 55 1 ++ List.replicate 55 5)
        (SplitArray 0 231) [] =
      .ok (List.replicate 121 9 ++ List.replicate 55 1 ++ List.replicate 55 5,
        List.replicate 11 9 ++ List.replicate 5 1 ++ List.replicate 5 5) ∧
    Select 230 (List.replicate 11 9 ++ List.replicate 5 1 ++ List.replicate 5 5) 0 21
        ((21 - 1) / 2) =
      .ok ([1, 1, 1, 1, 1, 1, 5, 5, 5, 5, 5, 9, 9, 9, 9, 9, 9, 9, 9, 9, 9], 10) ∧
    (Memory.mk (List.replicate 121 9 ++ List.replicate 55 1 ++ List.replicate 55 5)
        [1, 1, 1, 1, 1, 1, 5, 5, 5, 5, 5, 9, 9, 9, 9, 9, 9, 9, 9, 9, 9]).read (.aux 10) =
      .ok 5 ∧
    (stdSort (List.replicate 11 9 ++ List.replicate 5 1 ++ List.replicate 5 5))[(21 - 1) / 2]? =
      some 9 :=
  ⟨rfl, rfl, rfl, rfl⟩

/-- C18: for every range `[f, l)` of a buffer, of any length, `InsertionSort` succeeds, the range
afterwards is in non-descending order and is a permutation of its contents before the call;
positions outside the range are untouched. -/
theorem C18_InsertionSort_sorted_perm [LinearOrder α] (a : List α) (f l : Nat) (hfl : f ≤ l)
    (hl : l ≤ a.length) :
    ∃ b, InsertionSort a f l = .ok b ∧ (segment b f l).Sorted (· ≤ ·) ∧
      (segment b f l).Perm (segment a f l) ∧ SameOutside a b f l := by
  obtain ⟨b, g1, g2, g3, g4, _⟩ := InsertionSort_spec a f l hfl hl
  exact ⟨b, g1, g2, g3, g4⟩

/-- Instance of C18: the range `[1, 5)` of the buffer `[9, 4, 2, 8, 6, 0]`. -/
theorem C18_InsertionSort_sorted_perm_witness :
    1 ≤ 5 ∧ 5 ≤ [9, 4, 2, 8, 6, 0].length ∧
      ∃ b, InsertionSort [9, 4, 2, 8, 6, 0] 1 5 = .ok b ∧ (segment b 1 5).Sorted (· ≤ ·) ∧
        (segment b 1 5).Perm (segment [9, 4, 2, 8, 6, 0] 1 5) ∧
        SameOutside [9, 4, 2, 8, 6, 0] b 1 5 :=
  ⟨by decide, by decide,
    C18_InsertionSort_sorted_perm [9, 4, 2, 8, 6, 0] 1 5 (by decide) (by decide)⟩

end OrdinalStatistics
